import Mathlib

/-!
# go-promise: the settlement machine, the function adapter and the `All` combinator

A shallow embedding of `src/promise.go`.

Goroutines and channel operations are modelled as explicit state machines:
a state records where every goroutine stands (running, or blocked at a channel
operation), an action is one scheduling decision (which goroutine moves, or
which sender an unbuffered receive pairs with), and `step` performs it or
returns `none` when that move is not enabled.  Every interleaving of the
program is a list of actions accepted by `run`.

* An executor (`PromiseFn`) acts on its promise only through the calls it makes
  on `resolve` and `reject`, so it is given by that list of calls.
* `NewPromiseFunc` inspects only the values its argument returns, so the
  argument is given by those values.
* `multiPromise.Then` uses its members only through the interface method
  `Then`.  For members that are distinct promises, each observed by this call
  only, a member is given by the callback invocation its `Then` makes
  (`multiPromise`).  Where the identity of the members matters, the members
  are `singlePromise` objects in a heap and `All` takes their addresses
  (`Heap.multiPromise`).
* Safety statements quantify over all schedules (`run`); termination statements
  use `Inevitable`, which asks every enabled move to make progress towards the
  goal, so they hold whichever goroutine the scheduler picks.
-/

namespace GoPromise

/-! ## Values -/

/-- A value of Go type `interface{}`. -/
inductive Value where
  /-- the nil interface value -/
  | nil
  /-- a string -/
  | str (s : String)
  /-- an integer -/
  | int (n : Int)
  /-- a non-nil interface value whose dynamic type implements `error` -/
  | err (msg : String)
  /-- a `[]interface{}` boxed into a single `interface{}` -/
  | slice (vs : List Value)

mutual
/-- Decidable equality of values. -/
def Value.decEq : (a b : Value) → Decidable (a = b)
  | .nil, .nil => isTrue rfl
  | .str s, .str t => if h : s = t then isTrue (by rw [h]) else isFalse (by intro e; cases e; exact h rfl)
  | .int n, .int m => if h : n = m then isTrue (by rw [h]) else isFalse (by intro e; cases e; exact h rfl)
  | .err s, .err t => if h : s = t then isTrue (by rw [h]) else isFalse (by intro e; cases e; exact h rfl)
  | .slice vs, .slice ws =>
    match Value.decEqList vs ws with
    | isTrue h => isTrue (by rw [h])
    | isFalse h => isFalse (by intro e; cases e; exact h rfl)
  | .nil, .str _ => isFalse nofun
  | .nil, .int _ => isFalse nofun
  | .nil, .err _ => isFalse nofun
  | .nil, .slice _ => isFalse nofun
  | .str _, .nil => isFalse nofun
  | .str _, .int _ => isFalse nofun
  | .str _, .err _ => isFalse nofun
  | .str _, .slice _ => isFalse nofun
  | .int _, .nil => isFalse nofun
  | .int _, .str _ => isFalse nofun
  | .int _, .err _ => isFalse nofun
  | .int _, .slice _ => isFalse nofun
  | .err _, .nil => isFalse nofun
  | .err _, .str _ => isFalse nofun
  | .err _, .int _ => isFalse nofun
  | .err _, .slice _ => isFalse nofun
  | .slice _, .nil => isFalse nofun
  | .slice _, .str _ => isFalse nofun
  | .slice _, .int _ => isFalse nofun
  | .slice _, .err _ => isFalse nofun
/-- Decidable equality of value lists. -/
def Value.decEqList : (as bs : List Value) → Decidable (as = bs)
  | [], [] => isTrue rfl
  | [], _ :: _ => isFalse nofun
  | _ :: _, [] => isFalse nofun
  | a :: as, b :: bs =>
    match Value.decEq a b, Value.decEqList as bs with
    | isTrue h, isTrue hs => isTrue (by rw [h, hs])
    | isFalse h, _ => isFalse (by intro e; cases e; exact h rfl)
    | _, isFalse hs => isFalse (by intro e; cases e; exact hs rfl)
end

instance : DecidableEq Value := Value.decEq

/-- Capacity of the buffered done channel `d`. -/
def DONE_CHAN_BUFFER_SIZE : Nat := 100

/-- The struct sent over the `succ` and `err` channels. -/
structure packedResults where
  results : List Value
  deriving DecidableEq

/-- One call an executor makes on the capabilities it was handed:
`resolve(results...)` or `reject(results...)`. -/
inductive Call where
  | resolve (results : List Value)
  | reject (results : List Value)
  deriving DecidableEq

/-- An executor of type `PromiseFn`, given by the calls it makes on its
`resolve` and `reject` arguments, in program order.  Each call returns before
the next one is made, as in a Go function body run by one goroutine. -/
abbrev PromiseFn := List Call

/-- An invocation of one of the two callbacks handed to `Then`, with the
contents of the callback's variadic parameter. -/
inductive Callback where
  | succFn (args : List Value)
  | errFn (args : List Value)
  deriving DecidableEq

/-! ## Executions -/

/-- Runs a list of scheduling decisions; `none` when one of them is not enabled. -/
def run {σ α : Type} (step : σ → α → Option σ) : σ → List α → Option σ
  | s, [] => some s
  | s, a :: as =>
    match step s a with
    | some s' => run step s' as
    | none => none

/-- On every schedule the system reaches a state satisfying `P`: either `P`
holds now, or some move is enabled and every enabled move leads to a state from
which `P` is again inevitable. -/
inductive Inevitable {σ α : Type} (step : σ → α → Option σ) (P : σ → Prop) : σ → Prop where
  | now {s : σ} : P s → Inevitable step P s
  | later {s : σ} : (∃ a s', step s a = some s') →
      (∀ a s', step s a = some s' → Inevitable step P s') → Inevitable step P s

/-! ## `singlePromise` -/

/-- Where the goroutine `go p.eval(resolveFn, rejectFn)` stands. -/
inductive EvalPc where
  /-- running the executor body; the calls still to be made -/
  | running (todo : PromiseFn)
  /-- inside `resolveFn`, past `p.d <- true`, blocked at `p.succ <- packed` -/
  | sendSucc (packed : packedResults) (todo : PromiseFn)
  /-- inside `rejectFn`, blocked at `p.err <- packed` -/
  | sendErr (packed : packedResults) (todo : PromiseFn)
  deriving DecidableEq

/-- The promise built by `NewPromise`.  The channels `succ` and `err` are
unbuffered, so they hold nothing: a pending send on them is the position of the
executor goroutine.  `d` is the content of the buffered done channel. -/
structure singlePromise where
  d : List Bool
  eval : EvalPc
  deriving DecidableEq

/-- The constructor `NewPromise(fn)`: fresh channels, and the executor goroutine
started. -/
def NewPromise (fn : PromiseFn) : singlePromise :=
  { d := [], eval := .running fn }

/-- The closure `resolveFn(results...)` up to its blocking send: packs the results, pushes
`true` on `d` (possible only while the buffer has room) and blocks at
`p.succ <- packed`. -/
def resolveFn (p : singlePromise) (results : List Value) (todo : PromiseFn) :
    Option singlePromise :=
  if p.d.length < DONE_CHAN_BUFFER_SIZE then
    some { d := p.d ++ [true], eval := .sendSucc { results := results } todo }
  else none

/-- The closure `rejectFn(results...)` up to its blocking send `p.err <- packed`. -/
def rejectFn (p : singlePromise) (results : List Value) (todo : PromiseFn) :
    Option singlePromise :=
  some { p with eval := .sendErr { results := results } todo }

/-- The executor goroutine makes its next call. -/
def singlePromise.evalStep (p : singlePromise) : Option singlePromise :=
  match p.eval with
  | .running (.resolve results :: todo) => resolveFn p results todo
  | .running (.reject results :: todo) => rejectFn p results todo
  | _ => none

/-- The `select` of `singlePromise.Then`: receives from `p.succ` or from
`p.err`, whichever has a sender, and invokes the matching callback with the
received results spread (`result.results...`); the sender is released.  `none`
when no sender is blocked on either channel. -/
def singlePromise.Then (p : singlePromise) : Option (Callback × singlePromise) :=
  match p.eval with
  | .sendSucc result todo => some (.succFn result.results, { p with eval := .running todo })
  | .sendErr result todo => some (.errFn result.results, { p with eval := .running todo })
  | .running _ => none

/-- One call `p.Then(succFn, errFn)`: whether it has returned, and the
callback invocations it has made. -/
structure ThenCall where
  returned : Bool
  calls : List Callback
  deriving DecidableEq

/-- A promise together with the `Then` calls made on it. -/
structure SingleState where
  p : singlePromise
  thens : List ThenCall
  deriving DecidableEq

/-- Scheduling decisions of a single promise and its observers. -/
inductive SingleAction where
  /-- the executor goroutine runs to its next blocking send -/
  | eval
  /-- the `select` of the `j`-th `Then` call receives -/
  | select (j : Nat)
  deriving DecidableEq

/-- One scheduling decision. -/
def SingleState.step (s : SingleState) : SingleAction → Option SingleState
  | .eval =>
    match s.p.evalStep with
    | some p' => some { s with p := p' }
    | none => none
  | .select j =>
    match s.thens[j]? with
    | some t =>
      if t.returned then none
      else
        match s.p.Then with
        | some (cb, p') =>
          some { p := p', thens := s.thens.set j { returned := true, calls := t.calls ++ [cb] } }
        | none => none
    | none => none

/-- The promise `p` with `k` calls of `Then` made on it, none of which has
received yet. -/
def SingleState.observe (p : singlePromise) (k : Nat) : SingleState :=
  { p := p, thens := List.replicate k { returned := false, calls := [] } }

/-! ## `NewPromiseFunc` -/

/-- The test `err, ok := outputs[0].(error); ok && err != nil`: the type
assertion succeeds exactly for a non-nil interface value whose dynamic type
implements `error`, and then `err` is non-nil. -/
def isError : Value → Bool
  | .err _ => true
  | _ => false

/-- The executor `wrappedFn` built by `NewPromiseFunc(fn)`, as a function of the
values `outputs` that the call `fnval.Call` returns. -/
def wrappedFn (outputs : List Value) : PromiseFn :=
  if outputs.length = 0 then
    [.resolve []]
  else if h : outputs.length = 1 then
    if isError (outputs.get ⟨0, by omega⟩) then
      [.reject [outputs.get ⟨0, by omega⟩]]
    else
      [.resolve outputs]
  else
    [.resolve outputs]

/-- The constructor `NewPromiseFunc(fn)` for a function `fn` that takes no
argument and returns `outputs`.  (For a `fn` that is not a function the source
returns a nil `Promise`; that branch builds no promise.) -/
def NewPromiseFunc (outputs : List Value) : singlePromise :=
  NewPromise (wrappedFn outputs)

/-! ## `multiPromise` -/

/-- A value of the interface type `Promise` as `multiPromise.Then` uses it: the
one invocation that its method `Then` makes, once the promise has settled, on
the two callbacks it is handed (`succFn` with the value-set of a promise that
succeeded, `errFn` with the value-set of one that failed).  This describes
members that are distinct promise objects, each observed by this call of
`multiPromise.Then` only; `Heap.multiPromise` below keeps the members as
`singlePromise` objects with their identity and their channels. -/
abbrev Promise := Callback

/-- The combinator built by `All`. -/
structure multiPromise where
  promises : List Promise
  deriving DecidableEq

/-- The constructor `All(promises...)`. -/
def All (promises : List Promise) : multiPromise :=
  { promises := promises }

/-- Where the goroutine `go p.Then(successCollector(i), errorCollector(i))`
stands. -/
inductive CollectorPc where
  /-- inside `p.Then`, no collector invoked yet -/
  | inThen
  /-- in `successCollector(i)`, past `results[index] = res`, blocked at
  `successDone <- true` -/
  | sendSuccess
  /-- in `errorCollector(i)`, past `errs[index] = e`, blocked at
  `errDone <- index` -/
  | sendErr
  /-- its send was received -/
  | exited
  deriving DecidableEq

/-- Where the goroutine that called `multiPromise.Then` stands. -/
inductive MonitorPc where
  /-- in the `for` loop labelled `monitor` -/
  | monitor
  /-- past `break monitor`, before the flattening loop -/
  | flatten
  /-- the call of `Then` has returned -/
  | returned
  deriving DecidableEq

/-- The locals of one call of `multiPromise.Then`, the goroutines it started
and the invocations of `succFn` and `errFn` it has made.  The channels
`successDone` and `errDone` are unbuffered: a pending send is the position of a
collector goroutine. -/
structure MultiState where
  results : List (List Value)
  errs : List (List Value)
  collectors : List CollectorPc
  successCounter : Nat
  pc : MonitorPc
  calls : List Callback
  deriving DecidableEq

/-- The method `multiPromise.Then` up to the first iteration of the monitor loop: the two
slot arrays of length `len(mp.promises)`, one collector goroutine per member,
and `successCounter := 0`. -/
def multiPromise.Then (mp : multiPromise) : MultiState :=
  { results := List.replicate mp.promises.length []
    errs := List.replicate mp.promises.length []
    collectors := List.replicate mp.promises.length .inThen
    successCounter := 0
    pc := .monitor
    calls := [] }

/-- The loop `for _, res := range results { flatResults = append(flatResults, res...) }`. -/
def flatResults (results : List (List Value)) : List Value :=
  results.foldl (fun acc res => acc ++ res) []

/-- Scheduling decisions of one call of `multiPromise.Then`. -/
inductive MultiAction where
  /-- member `i` has settled and its `Then` invokes the collector it was given -/
  | childThen (i : Nat)
  /-- the `select` takes `case <-successDone`, pairing with collector `i` -/
  | successDone (i : Nat)
  /-- the `select` takes `case index := <-errDone`, pairing with collector `i` -/
  | errDone (i : Nat)
  /-- the `select` takes `default` -/
  | poll
  /-- the code after the loop: flatten, `succFn(flatResults)`, `return` -/
  | flatten
  deriving DecidableEq

/-- Whether some collector is blocked at a send, so that a receive case of the
`select` is ready. -/
def senderReady (collectors : List CollectorPc) : Bool :=
  collectors.any fun c => c == .sendSuccess || c == .sendErr

/-- One scheduling decision. -/
def multiPromise.step (mp : multiPromise) (s : MultiState) : MultiAction → Option MultiState
  | .childThen i =>
    match s.collectors[i]?, mp.promises[i]? with
    | some .inThen, some (.succFn res) =>
      some { s with results := s.results.set i res, collectors := s.collectors.set i .sendSuccess }
    | some .inThen, some (.errFn e) =>
      some { s with errs := s.errs.set i e, collectors := s.collectors.set i .sendErr }
    | _, _ => none
  | .successDone i =>
    match s.pc, s.collectors[i]? with
    | .monitor, some .sendSuccess =>
      some { s with
        collectors := s.collectors.set i .exited
        successCounter := s.successCounter + 1
        pc := if s.successCounter + 1 = mp.promises.length then .flatten else .monitor }
    | _, _ => none
  | .errDone i =>
    match s.pc, s.collectors[i]? with
    | .monitor, some .sendErr =>
      some { s with
        collectors := s.collectors.set i .exited
        pc := .returned
        calls := s.calls ++ [.errFn [.slice (s.errs.getD i [])]] }
    | _, _ => none
  | .poll =>
    match s.pc with
    | .monitor => if senderReady s.collectors then none else some s
    | _ => none
  | .flatten =>
    match s.pc with
    | .flatten =>
      some { s with pc := .returned, calls := s.calls ++ [.succFn [.slice (flatResults s.results)]] }
    | _ => none

/-- The scheduling decisions that change the state: all but the `default`
branch of the `select`, which is enabled only while no collector is blocked at
a send and leaves every variable as it is.  A run of the monitor loop is a run
of these moves with polling rounds in between; the loop polls forever exactly
when no such move is ever taken. -/
def multiPromise.progress (mp : multiPromise) (s : MultiState) (a : MultiAction) :
    Option MultiState :=
  if a = .poll then none else mp.step s a

/-! ## `multiPromise` over `singlePromise` objects -/

/-- The combinator built by `All` from promises built by `NewPromise`, with the
identity of its members: `promises[i]` is the address, in a heap of
`singlePromise` objects, of the object that the `i`-th argument of `All` points
to.  Arguments that are the same promise have the same address. -/
structure Heap.multiPromise where
  promises : List Nat
  deriving DecidableEq

/-- The constructor `All(promises...)` on promise addresses. -/
def Heap.All (promises : List Nat) : Heap.multiPromise :=
  { promises := promises }

/-- The promise objects, the locals of one call of `multiPromise.Then`, the
collector goroutines it started and the invocations of `succFn` and `errFn` it
has made. -/
structure Heap.State where
  heap : List singlePromise
  results : List (List Value)
  errs : List (List Value)
  collectors : List CollectorPc
  successCounter : Nat
  pc : MonitorPc
  calls : List Callback
  deriving DecidableEq

/-- The method `multiPromise.Then` up to the first iteration of the monitor
loop, called while the promise objects are in the states `heap`. -/
def Heap.multiPromise.Then (mp : Heap.multiPromise) (heap : List singlePromise) : Heap.State :=
  { heap := heap
    results := List.replicate mp.promises.length []
    errs := List.replicate mp.promises.length []
    collectors := List.replicate mp.promises.length .inThen
    successCounter := 0
    pc := .monitor
    calls := [] }

/-- Scheduling decisions of the promise objects and one call of
`multiPromise.Then` on them. -/
inductive Heap.Action where
  /-- the executor goroutine of the promise at address `r` runs to its next
  blocking send -/
  | eval (r : Nat)
  /-- the `select` of `singlePromise.Then`, called by collector goroutine `i` on
  member `i`, receives, and invokes the collector it was given -/
  | childThen (i : Nat)
  /-- the `select` takes `case <-successDone`, pairing with collector `i` -/
  | successDone (i : Nat)
  /-- the `select` takes `case index := <-errDone`, pairing with collector `i` -/
  | errDone (i : Nat)
  /-- the `select` takes `default` -/
  | poll
  /-- the code after the loop: flatten, `succFn(flatResults)`, `return` -/
  | flatten
  deriving DecidableEq

/-- One scheduling decision. -/
def Heap.multiPromise.step (mp : Heap.multiPromise) (s : Heap.State) :
    Heap.Action → Option Heap.State
  | .eval r =>
    match s.heap[r]? with
    | some p =>
      match p.evalStep with
      | some p' => some { s with heap := s.heap.set r p' }
      | none => none
    | none => none
  | .childThen i =>
    match s.collectors[i]?, mp.promises[i]? with
    | some .inThen, some r =>
      match s.heap[r]? with
      | some p =>
        match p.Then with
        | some (.succFn res, p') =>
          some { s with
            heap := s.heap.set r p'
            results := s.results.set i res
            collectors := s.collectors.set i .sendSuccess }
        | some (.errFn e, p') =>
          some { s with
            heap := s.heap.set r p'
            errs := s.errs.set i e
            collectors := s.collectors.set i .sendErr }
        | none => none
      | none => none
    | _, _ => none
  | .successDone i =>
    match s.pc, s.collectors[i]? with
    | .monitor, some .sendSuccess =>
      some { s with
        collectors := s.collectors.set i .exited
        successCounter := s.successCounter + 1
        pc := if s.successCounter + 1 = mp.promises.length then .flatten else .monitor }
    | _, _ => none
  | .errDone i =>
    match s.pc, s.collectors[i]? with
    | .monitor, some .sendErr =>
      some { s with
        collectors := s.collectors.set i .exited
        pc := .returned
        calls := s.calls ++ [.errFn [.slice (s.errs.getD i [])]] }
    | _, _ => none
  | .poll =>
    match s.pc with
    | .monitor => if senderReady s.collectors then none else some s
    | _ => none
  | .flatten =>
    match s.pc with
    | .flatten =>
      some { s with pc := .returned, calls := s.calls ++ [.succFn [.slice (flatResults s.results)]] }
    | _ => none

/-- The scheduling decisions that change the state: all but the `default`
branch of the `select`. -/
def Heap.multiPromise.progress (mp : Heap.multiPromise) (s : Heap.State) (a : Heap.Action) :
    Option Heap.State :=
  if a = .poll then none else mp.step s a

/-! ## Auxiliary definitions for the proofs -/

/-- The callback invocation that delivers an executor call to a `Then`. -/
def Call.toCallback : Call → Callback
  | .resolve results => .succFn results
  | .reject results => .errFn results

/-- The executor goroutine blocked in the send of the call `c`. -/
def EvalPc.blocked : Call → PromiseFn → EvalPc
  | .resolve results, todo => .sendSucc { results := results } todo
  | .reject results, todo => .sendErr { results := results } todo

/-- A `Then` call blocked in its `select`. -/
def ThenCall.waiting : ThenCall := { returned := false, calls := [] }

/-- A `Then` call that invoked `cb` once and returned. -/
def ThenCall.done (cb : Callback) : ThenCall := { returned := true, calls := [cb] }

/-- Number of channel operations the executor goroutine still has to complete. -/
def EvalPc.fuel : EvalPc → Nat
  | .running todo => 2 * todo.length
  | .sendSucc _ todo => 2 * todo.length + 1
  | .sendErr _ todo => 2 * todo.length + 1

/-- The `k` calls of `Then` of which the `j`-th invoked `cb` and returned while
the others are still blocked. -/
def oneDone (k j : Nat) (cb : Callback) : List ThenCall :=
  (List.replicate k ThenCall.waiting).set j (.done cb)

/-- The `k` calls of `Then` of which the `j`-th invoked `cb`, the `j'`-th invoked
`cb'`, and the others are still blocked. -/
def twoDone (k j j' : Nat) (cb cb' : Callback) : List ThenCall :=
  (oneDone k j cb).set j' (.done cb')

/-- The states of a promise whose executor makes the single call `c`, with `k`
calls of `Then`: before the delivery all observers wait; after it the executor
has finished and one observer has invoked the matching callback. -/
def OneCallInv (c : Call) (k : Nat) (s : SingleState) : Prop :=
  s.p.d.length + s.p.eval.fuel ≤ 2 ∧
  (((s.p.eval = .running [c] ∨ s.p.eval = .blocked c []) ∧
      s.thens = List.replicate k ThenCall.waiting) ∨
   (s.p.eval = .running [] ∧ ∃ j, j < k ∧ s.thens = oneDone k j c.toCallback))

/-- The states of a promise whose executor makes the call `c₁` and then the call
`c₂`, with `k` calls of `Then`. -/
def TwoCallsInv (c₁ c₂ : Call) (k : Nat) (s : SingleState) : Prop :=
  s.p.d.length + s.p.eval.fuel ≤ 4 ∧
  (((s.p.eval = .running [c₁, c₂] ∨ s.p.eval = .blocked c₁ [c₂]) ∧
      s.thens = List.replicate k ThenCall.waiting) ∨
   ((s.p.eval = .running [c₂] ∨ s.p.eval = .blocked c₂ []) ∧
      ∃ j, j < k ∧ s.thens = oneDone k j c₁.toCallback) ∨
   (s.p.eval = .running [] ∧
      ∃ j j', j < k ∧ j' < k ∧ j ≠ j' ∧ s.thens = twoDone k j j' c₁.toCallback c₂.toCallback))

/-- Steps a collector goroutine still has to take. -/
def CollectorPc.weight : CollectorPc → Nat
  | .inThen => 2
  | .sendSuccess => 1
  | .sendErr => 1
  | .exited => 0

/-- Steps the monitor still has to take by itself. -/
def MonitorPc.weight : MonitorPc → Nat
  | .monitor => 2
  | .flatten => 1
  | .returned => 0

/-- A bound on the number of state-changing steps left. -/
def MultiState.fuel (s : MultiState) : Nat :=
  (s.collectors.map CollectorPc.weight).sum + s.pc.weight

/-- What holds in every state of a call of `multiPromise.Then`. -/
structure MultiInv (mp : multiPromise) (s : MultiState) : Prop where
  len_collectors : s.collectors.length = mp.promises.length
  len_results : s.results.length = mp.promises.length
  len_errs : s.errs.length = mp.promises.length
  sendSuccess : ∀ i : Nat, s.collectors[i]? = some .sendSuccess →
    ∃ V, mp.promises[i]? = some (.succFn V) ∧ s.results[i]? = some V
  sendErr : ∀ i : Nat, s.collectors[i]? = some .sendErr →
    ∃ E, mp.promises[i]? = some (.errFn E) ∧ s.errs[i]? = some E
  exited : ∀ i : Nat, s.collectors[i]? = some .exited →
    (∃ V, mp.promises[i]? = some (.succFn V) ∧ s.results[i]? = some V) ∨
    (∃ E, mp.promises[i]? = some (.errFn E) ∧ s.calls = [.errFn [.slice E]] ∧ s.pc = .returned)
  counter : s.pc ≠ .returned → s.successCounter = s.collectors.countP (· == .exited)
  monitor : s.pc = .monitor →
    s.calls = [] ∧ (mp.promises ≠ [] → s.successCounter < mp.promises.length)
  flatten : s.pc = .flatten → s.calls = [] ∧ s.successCounter = mp.promises.length
  returned : s.pc = .returned →
    (s.calls = [.succFn [.slice (flatResults s.results)]] ∧
      ∀ i : Nat, i < mp.promises.length → s.collectors[i]? = some .exited) ∨
    (∃ (i : Nat) (E : List Value), mp.promises[i]? = some (.errFn E) ∧ s.calls = [.errFn [.slice E]] ∧
      s.successCounter < mp.promises.length)

/-- A bound on the number of state-changing steps left, executors included. -/
def Heap.State.fuel (s : Heap.State) : Nat :=
  (s.heap.map fun p => p.eval.fuel).sum + (s.collectors.map CollectorPc.weight).sum + s.pc.weight

/-- The stages of a member whose executor calls `resolve(V)` once, together
with its collector goroutine and its result slot: executor not yet in its send;
executor blocked at `p.succ <- packed`; value received, slot written. -/
def MemberOk (V : List Value) (p : singlePromise) (c : CollectorPc) (res : List Value) : Prop :=
  (p = NewPromise [.resolve V] ∧ c = .inThen) ∨
  (p = { d := [true], eval := .sendSucc { results := V } [] } ∧ c = .inThen) ∨
  (p = { d := [true], eval := .running [] } ∧ (c = .sendSuccess ∨ c = .exited) ∧ res = V)

/-- What holds in every state of a call of `multiPromise.Then` on distinct
members, member `i` resolving once with `Vs[i]`. -/
structure HeapInv (mp : Heap.multiPromise) (Vs : List (List Value)) (s : Heap.State) : Prop where
  len_collectors : s.collectors.length = mp.promises.length
  len_results : s.results.length = mp.promises.length
  member : ∀ (i : Nat) (V : List Value), Vs[i]? = some V →
    ∃ r p c res, mp.promises[i]? = some r ∧ s.heap[r]? = some p ∧
      s.collectors[i]? = some c ∧ s.results[i]? = some res ∧ MemberOk V p c res
  counter : s.pc ≠ .returned → s.successCounter = s.collectors.countP (· == .exited)
  monitor : s.pc = .monitor → s.calls = [] ∧ s.successCounter < mp.promises.length
  flatten : s.pc = .flatten → s.calls = [] ∧ s.successCounter = mp.promises.length
  returned : s.pc = .returned →
    s.calls = [.succFn [.slice (flatResults s.results)]] ∧
      ∀ i : Nat, i < mp.promises.length → s.collectors[i]? = some .exited

/-- The states of `All(a, a).Then` for one promise `a` whose executor calls
`resolve("v")` once: the one value sent on `a.succ` reaches at most one of the two
collectors, and the monitor stays in its loop. -/
def aliasedStates : List Heap.State :=
  [ { heap := [{ d := [], eval := .running [.resolve [.str "v"]] }]
      results := [[], []], errs := [[], []], collectors := [.inThen, .inThen]
      successCounter := 0, pc := .monitor, calls := [] },
    { heap := [{ d := [true], eval := .sendSucc { results := [.str "v"] } [] }]
      results := [[], []], errs := [[], []], collectors := [.inThen, .inThen]
      successCounter := 0, pc := .monitor, calls := [] },
    { heap := [{ d := [true], eval := .running [] }]
      results := [[.str "v"], []], errs := [[], []], collectors := [.sendSuccess, .inThen]
      successCounter := 0, pc := .monitor, calls := [] },
    { heap := [{ d := [true], eval := .running [] }]
      results := [[], [.str "v"]], errs := [[], []], collectors := [.inThen, .sendSuccess]
      successCounter := 0, pc := .monitor, calls := [] },
    { heap := [{ d := [true], eval := .running [] }]
      results := [[.str "v"], []], errs := [[], []], collectors := [.exited, .inThen]
      successCounter := 1, pc := .monitor, calls := [] },
    { heap := [{ d := [true], eval := .running [] }]
      results := [[], [.str "v"]], errs := [[], []], collectors := [.inThen, .exited]
      successCounter := 1, pc := .monitor, calls := [] } ]

/-- Whether the move `a` of `All(a, a).Then` leads from every state of
`aliasedStates` into `aliasedStates`. -/
def aliasedClosed (a : Heap.Action) : Bool :=
  aliasedStates.all fun s =>
    match (Heap.All [0, 0]).step s a with
    | some s' => decide (s' ∈ aliasedStates)
    | none => true

end GoPromise

namespace GoPromise

/-! ## Executions: general lemmas -/

theorem run_invariant {σ α : Type} (step : σ → α → Option σ) (Inv : σ → Prop)
    (hstep : ∀ s a s', Inv s → step s a = some s' → Inv s') :
    ∀ (acts : List α) (s s' : σ), Inv s → run step s acts = some s' → Inv s' := by
  intro acts
  induction acts with
  | nil =>
    intro s s' hs h
    simp only [run, Option.some.injEq] at h
    exact h ▸ hs
  | cons a as ih =>
    intro s s' hs h
    simp only [run] at h
    cases hsa : step s a with
    | none => simp [hsa] at h
    | some t =>
      rw [hsa] at h
      exact ih t s' (hstep s a t hs hsa) h

theorem Inevitable.of_measure {σ α : Type} (step : σ → α → Option σ) (P Inv : σ → Prop)
    (μ : σ → Nat)
    (h : ∀ s, Inv s → P s ∨ ((∃ a s', step s a = some s') ∧
      ∀ a s', step s a = some s' → Inv s' ∧ μ s' < μ s)) :
    ∀ s, Inv s → Inevitable step P s := by
  have key : ∀ n s, μ s = n → Inv s → Inevitable step P s := by
    intro n
    induction n using Nat.strong_induction_on with
    | _ n ih =>
      intro s hn hs
      rcases h s hs with hP | ⟨hex, hall⟩
      · exact Inevitable.now hP
      · refine Inevitable.later hex ?_
        intro a s' hstep
        obtain ⟨hinv, hlt⟩ := hall a s' hstep
        exact ih (μ s') (hn ▸ hlt) s' rfl hinv
  intro s hs
  exact key (μ s) s rfl hs

/-! ## `singlePromise`: the moves of the executor and of `Then` -/

theorem evalStep_running (d : List Bool) (c : Call) (todo : PromiseFn)
    (hd : d.length < DONE_CHAN_BUFFER_SIZE) :
    ∃ d', d'.length ≤ d.length + 1 ∧
      singlePromise.evalStep { d := d, eval := .running (c :: todo) }
        = some { d := d', eval := .blocked c todo } := by
  cases c with
  | resolve r =>
    exact ⟨d ++ [true], by simp, by simp [singlePromise.evalStep, resolveFn, hd, EvalPc.blocked]⟩
  | reject r =>
    exact ⟨d, by simp, by simp [singlePromise.evalStep, rejectFn, EvalPc.blocked]⟩

theorem evalStep_some (p p' : singlePromise) (h : p.evalStep = some p') :
    ∃ c todo, p.eval = .running (c :: todo) ∧ p'.eval = .blocked c todo ∧
      p'.d.length ≤ p.d.length + 1 := by
  obtain ⟨d, e⟩ := p
  cases e with
  | running todo =>
    cases todo with
    | nil => simp [singlePromise.evalStep] at h
    | cons c todo =>
      cases c with
      | resolve r =>
        simp only [singlePromise.evalStep, resolveFn] at h
        split at h
        · simp only [Option.some.injEq] at h
          subst h
          exact ⟨_, _, rfl, rfl, by simp⟩
        · simp at h
      | reject r =>
        simp only [singlePromise.evalStep, rejectFn, Option.some.injEq] at h
        subst h
        exact ⟨_, _, rfl, rfl, by simp⟩
  | sendSucc packed todo => simp [singlePromise.evalStep] at h
  | sendErr packed todo => simp [singlePromise.evalStep] at h

theorem Then_blocked (d : List Bool) (c : Call) (todo : PromiseFn) :
    singlePromise.Then { d := d, eval := .blocked c todo }
      = some (c.toCallback, { d := d, eval := .running todo }) := by
  cases c <;> rfl

theorem Then_some (p p' : singlePromise) (cb : Callback) (h : p.Then = some (cb, p')) :
    ∃ c todo, p.eval = .blocked c todo ∧ cb = c.toCallback ∧
      p' = { d := p.d, eval := .running todo } := by
  obtain ⟨d, e⟩ := p
  cases e with
  | running todo => simp [singlePromise.Then] at h
  | sendSucc packed todo =>
    simp only [singlePromise.Then, Option.some.injEq, Prod.mk.injEq] at h
    exact ⟨.resolve packed.results, todo, rfl, h.1.symm, h.2.symm⟩
  | sendErr packed todo =>
    simp only [singlePromise.Then, Option.some.injEq, Prod.mk.injEq] at h
    exact ⟨.reject packed.results, todo, rfl, h.1.symm, h.2.symm⟩

theorem step_eval_some (s s' : SingleState) (h : s.step .eval = some s') :
    ∃ c todo, s.p.eval = .running (c :: todo) ∧ s'.p.eval = .blocked c todo ∧
      s'.p.d.length ≤ s.p.d.length + 1 ∧ s'.thens = s.thens := by
  simp only [SingleState.step] at h
  cases hp : s.p.evalStep with
  | none => simp [hp] at h
  | some p' =>
    simp only [hp, Option.some.injEq] at h
    subst h
    obtain ⟨c, todo, h1, h2, h3⟩ := evalStep_some _ _ hp
    exact ⟨c, todo, h1, h2, h3, rfl⟩

theorem step_select_some (s s' : SingleState) (j : Nat) (h : s.step (.select j) = some s') :
    ∃ c todo t, s.p.eval = .blocked c todo ∧ s.thens[j]? = some t ∧ t.returned = false ∧
      s'.p = { d := s.p.d, eval := .running todo } ∧
      s'.thens = s.thens.set j { returned := true, calls := t.calls ++ [c.toCallback] } := by
  simp only [SingleState.step] at h
  cases ht : s.thens[j]? with
  | none => simp [ht] at h
  | some t =>
    simp only [ht] at h
    cases hr : t.returned with
    | true => simp [hr] at h
    | false =>
      simp only [hr, Bool.false_eq_true, if_false] at h
      cases hp : s.p.Then with
      | none => simp [hp] at h
      | some r =>
        obtain ⟨cb, p'⟩ := r
        simp only [hp, Option.some.injEq] at h
        subst h
        obtain ⟨c, todo, h1, h2, h3⟩ := Then_some _ _ _ hp
        subst h2
        exact ⟨c, todo, t, h1, rfl, hr, h3, rfl⟩

theorem blocked_ne_running (c : Call) (todo todo' : PromiseFn) :
    EvalPc.blocked c todo ≠ EvalPc.running todo' := by
  cases c <;> simp [EvalPc.blocked]

theorem blocked_inj (c c' : Call) (todo todo' : PromiseFn)
    (h : EvalPc.blocked c todo = EvalPc.blocked c' todo') : c = c' ∧ todo = todo' := by
  cases c <;> cases c' <;> simp_all [EvalPc.blocked]

theorem fuel_blocked (c : Call) (todo : PromiseFn) :
    (EvalPc.blocked c todo).fuel = 2 * todo.length + 1 := by
  cases c <;> rfl

theorem single_step_fuel (s s' : SingleState) (a : SingleAction) (h : s.step a = some s') :
    s'.p.eval.fuel < s.p.eval.fuel := by
  cases a with
  | eval =>
    obtain ⟨c, todo, h1, h2, -, -⟩ := step_eval_some s s' h
    rw [h1, h2, fuel_blocked]
    simp [EvalPc.fuel]
    omega
  | select j =>
    obtain ⟨c, todo, t, h1, -, -, h4, -⟩ := step_select_some s s' j h
    rw [h1, h4, fuel_blocked]
    simp [EvalPc.fuel]

theorem single_step_budget (s s' : SingleState) (a : SingleAction) (h : s.step a = some s') :
    s'.p.d.length + s'.p.eval.fuel ≤ s.p.d.length + s.p.eval.fuel := by
  cases a with
  | eval =>
    obtain ⟨c, todo, h1, h2, h3, -⟩ := step_eval_some s s' h
    rw [h1, h2, fuel_blocked]
    simp only [EvalPc.fuel, List.length_cons]
    omega
  | select j =>
    obtain ⟨c, todo, t, h1, -, -, h4, -⟩ := step_select_some s s' j h
    rw [h1, h4, fuel_blocked]
    simp only [EvalPc.fuel]
    omega

theorem step_eval_enabled (s : SingleState) (c : Call) (todo : PromiseFn)
    (he : s.p.eval = .running (c :: todo)) (hd : s.p.d.length < DONE_CHAN_BUFFER_SIZE) :
    ∃ s', s.step .eval = some s' := by
  obtain ⟨⟨d, e⟩, thens⟩ := s
  simp only at he hd
  subst he
  obtain ⟨d', -, h⟩ := evalStep_running d c todo hd
  simp only [SingleState.step, h]
  exact ⟨_, rfl⟩

theorem step_select_enabled (s : SingleState) (c : Call) (todo : PromiseFn) (j : Nat)
    (t : ThenCall) (he : s.p.eval = .blocked c todo) (ht : s.thens[j]? = some t)
    (hr : t.returned = false) :
    ∃ s', s.step (.select j) = some s' := by
  obtain ⟨⟨d, e⟩, thens⟩ := s
  simp only at he ht
  subst he
  simp only [SingleState.step, ht, hr, Then_blocked, Bool.false_eq_true, if_false]
  exact ⟨_, rfl⟩

theorem waiting_getElem? (k j : Nat) (t : ThenCall)
    (h : (List.replicate k ThenCall.waiting)[j]? = some t) : j < k ∧ t = ThenCall.waiting := by
  rw [List.getElem?_replicate] at h
  split at h
  · exact ⟨by assumption, by simpa using h.symm⟩
  · simp at h

theorem oneDone_getElem? (k j i : Nat) (cb : Callback) (t : ThenCall) (hj : j < k)
    (h : (oneDone k j cb)[i]? = some t) (hr : t.returned = false) :
    i < k ∧ i ≠ j ∧ t = ThenCall.waiting := by
  unfold oneDone at h
  rw [List.getElem?_set] at h
  split at h
  · simp only [List.length_replicate, hj, if_true, Option.some.injEq] at h
    subst h
    simp [ThenCall.done] at hr
  · obtain ⟨h1, h2⟩ := waiting_getElem? k i t h
    exact ⟨h1, fun e => by omega, h2⟩

theorem oneCall_init (c : Call) (k : Nat) :
    OneCallInv c k (SingleState.observe (NewPromise [c]) k) :=
  ⟨by simp [SingleState.observe, NewPromise, EvalPc.fuel], Or.inl ⟨Or.inl rfl, rfl⟩⟩

theorem oneCall_step (c : Call) (k : Nat) (s s' : SingleState) (a : SingleAction)
    (hs : OneCallInv c k s) (h : s.step a = some s') : OneCallInv c k s' := by
  obtain ⟨hb, hshape⟩ := hs
  refine ⟨le_trans (single_step_budget s s' a h) hb, ?_⟩
  cases a with
  | eval =>
    obtain ⟨c', todo, h1, h2, -, h4⟩ := step_eval_some s s' h
    rcases hshape with ⟨he | he, ht⟩ | ⟨he, -⟩
    · rw [he] at h1
      simp only [EvalPc.running.injEq, List.cons.injEq] at h1
      obtain ⟨rfl, rfl⟩ := h1
      exact Or.inl ⟨Or.inr h2, h4.trans ht⟩
    · rw [he] at h1
      exact absurd h1 (blocked_ne_running _ _ _)
    · rw [he] at h1
      simp at h1
  | select i =>
    obtain ⟨c', todo, t, h1, h2, h3, h4, h5⟩ := step_select_some s s' i h
    rcases hshape with ⟨he | he, ht⟩ | ⟨he, -⟩
    · rw [he] at h1
      exact absurd h1.symm (blocked_ne_running _ _ _)
    · rw [he] at h1
      obtain ⟨rfl, rfl⟩ := blocked_inj _ _ _ _ h1
      rw [ht] at h2
      obtain ⟨hi, rfl⟩ := waiting_getElem? k i t h2
      refine Or.inr ⟨by rw [h4], i, hi, ?_⟩
      rw [h5, ht]
      rfl
    · rw [he] at h1
      exact absurd h1.symm (blocked_ne_running _ _ _)

theorem oneCall_inevitable (c : Call) (k : Nat) (hk : 0 < k) :
    Inevitable SingleState.step (fun s => ∃ j, j < k ∧ s.thens = oneDone k j c.toCallback)
      (SingleState.observe (NewPromise [c]) k) := by
  refine Inevitable.of_measure SingleState.step _ (OneCallInv c k) (fun s => s.p.eval.fuel) ?_ _
    (oneCall_init c k)
  intro s hs
  have hpres : ∀ a s', s.step a = some s' →
      OneCallInv c k s' ∧ s'.p.eval.fuel < s.p.eval.fuel :=
    fun a s' h => ⟨oneCall_step c k s s' a hs h, single_step_fuel s s' a h⟩
  obtain ⟨hb, hshape⟩ := hs
  rcases hshape with ⟨he | he, ht⟩ | ⟨-, hdone⟩
  · refine Or.inr ⟨?_, hpres⟩
    obtain ⟨s', h'⟩ := step_eval_enabled s c [] he (by simp only [DONE_CHAN_BUFFER_SIZE]; omega)
    exact ⟨_, s', h'⟩
  · refine Or.inr ⟨?_, hpres⟩
    have h0 : s.thens[0]? = some ThenCall.waiting := by
      rw [ht, List.getElem?_replicate, if_pos hk]
    obtain ⟨s', h'⟩ := step_select_enabled s c [] 0 _ he h0 rfl
    exact ⟨_, s', h'⟩
  · exact Or.inl hdone

theorem Inevitable.mono {σ α : Type} (step : σ → α → Option σ) (P Q : σ → Prop)
    (hPQ : ∀ s, P s → Q s) (s : σ) (h : Inevitable step P s) : Inevitable step Q s := by
  induction h with
  | now hP => exact Inevitable.now (hPQ _ hP)
  | later hex _ ih => exact Inevitable.later hex ih

theorem oneDone_other (k j i : Nat) (cb : Callback) (hi : i < k) (hij : j ≠ i) :
    (oneDone k j cb)[i]? = some ThenCall.waiting := by
  unfold oneDone
  rw [List.getElem?_set_ne hij, List.getElem?_replicate, if_pos hi]

theorem twoCalls_init (c₁ c₂ : Call) (k : Nat) :
    TwoCallsInv c₁ c₂ k (SingleState.observe (NewPromise [c₁, c₂]) k) :=
  ⟨by simp [SingleState.observe, NewPromise, EvalPc.fuel], Or.inl ⟨Or.inl rfl, rfl⟩⟩

theorem twoCalls_step (c₁ c₂ : Call) (k : Nat) (s s' : SingleState) (a : SingleAction)
    (hs : TwoCallsInv c₁ c₂ k s) (h : s.step a = some s') : TwoCallsInv c₁ c₂ k s' := by
  obtain ⟨hb, hshape⟩ := hs
  refine ⟨le_trans (single_step_budget s s' a h) hb, ?_⟩
  cases a with
  | eval =>
    obtain ⟨c', todo, h1, h2, -, h4⟩ := step_eval_some s s' h
    rcases hshape with ⟨he | he, ht⟩ | ⟨he | he, hd⟩ | ⟨he, -⟩
    · rw [he] at h1
      simp only [EvalPc.running.injEq, List.cons.injEq] at h1
      obtain ⟨rfl, rfl⟩ := h1
      exact Or.inl ⟨Or.inr h2, h4.trans ht⟩
    · rw [he] at h1
      exact absurd h1 (blocked_ne_running _ _ _)
    · rw [he] at h1
      simp only [EvalPc.running.injEq, List.cons.injEq] at h1
      obtain ⟨rfl, rfl⟩ := h1
      exact Or.inr (Or.inl ⟨Or.inr h2, by rw [h4]; exact hd⟩)
    · rw [he] at h1
      exact absurd h1 (blocked_ne_running _ _ _)
    · rw [he] at h1
      simp at h1
  | select i =>
    obtain ⟨c', todo, t, h1, h2, h3, h4, h5⟩ := step_select_some s s' i h
    rcases hshape with ⟨he | he, ht⟩ | ⟨he | he, j, hj, hd⟩ | ⟨he, -⟩
    · rw [he] at h1
      exact absurd h1.symm (blocked_ne_running _ _ _)
    · rw [he] at h1
      obtain ⟨rfl, rfl⟩ := blocked_inj _ _ _ _ h1
      rw [ht] at h2
      obtain ⟨hi, rfl⟩ := waiting_getElem? k i t h2
      refine Or.inr (Or.inl ⟨Or.inl (by rw [h4]), i, hi, ?_⟩)
      rw [h5, ht]
      rfl
    · rw [he] at h1
      exact absurd h1.symm (blocked_ne_running _ _ _)
    · rw [he] at h1
      obtain ⟨rfl, rfl⟩ := blocked_inj _ _ _ _ h1
      rw [hd] at h2
      obtain ⟨hi, hij, rfl⟩ := oneDone_getElem? k j i _ t hj h2 h3
      refine Or.inr (Or.inr ⟨by rw [h4], j, i, hj, hi, fun e => hij e.symm, ?_⟩)
      rw [h5, hd]
      rfl
    · rw [he] at h1
      exact absurd h1.symm (blocked_ne_running _ _ _)

theorem twoCalls_first_inevitable (c₁ c₂ : Call) (k : Nat) (hk : 0 < k) :
    Inevitable SingleState.step
      (fun s => (∃ j, j < k ∧ s.thens = oneDone k j c₁.toCallback) ∨
        ∃ j j', j < k ∧ j' < k ∧ j ≠ j' ∧ s.thens = twoDone k j j' c₁.toCallback c₂.toCallback)
      (SingleState.observe (NewPromise [c₁, c₂]) k) := by
  refine Inevitable.of_measure SingleState.step _ (TwoCallsInv c₁ c₂ k)
    (fun s => s.p.eval.fuel) ?_ _ (twoCalls_init c₁ c₂ k)
  intro s hs
  have hpres : ∀ a s', s.step a = some s' →
      TwoCallsInv c₁ c₂ k s' ∧ s'.p.eval.fuel < s.p.eval.fuel :=
    fun a s' h => ⟨twoCalls_step c₁ c₂ k s s' a hs h, single_step_fuel s s' a h⟩
  obtain ⟨hb, hshape⟩ := hs
  rcases hshape with ⟨he | he, ht⟩ | ⟨-, hd⟩ | ⟨-, hd⟩
  · refine Or.inr ⟨?_, hpres⟩
    obtain ⟨s', h'⟩ := step_eval_enabled s c₁ [c₂] he (by simp only [DONE_CHAN_BUFFER_SIZE]; omega)
    exact ⟨_, s', h'⟩
  · refine Or.inr ⟨?_, hpres⟩
    have h0 : s.thens[0]? = some ThenCall.waiting := by
      rw [ht, List.getElem?_replicate, if_pos hk]
    obtain ⟨s', h'⟩ := step_select_enabled s c₁ [c₂] 0 _ he h0 rfl
    exact ⟨_, s', h'⟩
  · exact Or.inl (Or.inl hd)
  · exact Or.inl (Or.inr hd)

theorem twoCalls_second_inevitable (c₁ c₂ : Call) (k : Nat) (hk : 2 ≤ k) :
    Inevitable SingleState.step
      (fun s => ∃ j j', j < k ∧ j' < k ∧ j ≠ j' ∧
        s.thens = twoDone k j j' c₁.toCallback c₂.toCallback)
      (SingleState.observe (NewPromise [c₁, c₂]) k) := by
  refine Inevitable.of_measure SingleState.step _ (TwoCallsInv c₁ c₂ k)
    (fun s => s.p.eval.fuel) ?_ _ (twoCalls_init c₁ c₂ k)
  intro s hs
  have hpres : ∀ a s', s.step a = some s' →
      TwoCallsInv c₁ c₂ k s' ∧ s'.p.eval.fuel < s.p.eval.fuel :=
    fun a s' h => ⟨twoCalls_step c₁ c₂ k s s' a hs h, single_step_fuel s s' a h⟩
  obtain ⟨hb, hshape⟩ := hs
  rcases hshape with ⟨he | he, ht⟩ | ⟨he | he, j, hj, hd⟩ | ⟨-, hd⟩
  · refine Or.inr ⟨?_, hpres⟩
    obtain ⟨s', h'⟩ := step_eval_enabled s c₁ [c₂] he (by simp only [DONE_CHAN_BUFFER_SIZE]; omega)
    exact ⟨_, s', h'⟩
  · refine Or.inr ⟨?_, hpres⟩
    have h0 : s.thens[0]? = some ThenCall.waiting := by
      rw [ht, List.getElem?_replicate, if_pos (by omega)]
    obtain ⟨s', h'⟩ := step_select_enabled s c₁ [c₂] 0 _ he h0 rfl
    exact ⟨_, s', h'⟩
  · refine Or.inr ⟨?_, hpres⟩
    obtain ⟨s', h'⟩ := step_eval_enabled s c₂ [] he (by simp only [DONE_CHAN_BUFFER_SIZE]; omega)
    exact ⟨_, s', h'⟩
  · refine Or.inr ⟨?_, hpres⟩
    by_cases hj0 : j = 0
    · have h1 : s.thens[1]? = some ThenCall.waiting := by
        rw [hd]; exact oneDone_other k j 1 _ (by omega) (by omega)
      obtain ⟨s', h'⟩ := step_select_enabled s c₂ [] 1 _ he h1 rfl
      exact ⟨_, s', h'⟩
    · have h0 : s.thens[0]? = some ThenCall.waiting := by
        rw [hd]; exact oneDone_other k j 0 _ (by omega) hj0
      obtain ⟨s', h'⟩ := step_select_enabled s c₂ [] 0 _ he h0 rfl
      exact ⟨_, s', h'⟩
  · exact Or.inl hd

theorem oneDone_one (j : Nat) (cb : Callback) (hj : j < 1) : oneDone 1 j cb = [.done cb] := by
  obtain rfl : j = 0 := by omega
  rfl

theorem oneDone_two (j : Nat) (cb : Callback) (hj : j < 2) :
    oneDone 2 j cb = [.done cb, .waiting] ∨ oneDone 2 j cb = [.waiting, .done cb] := by
  have : j = 0 ∨ j = 1 := by omega
  rcases this with rfl | rfl
  · exact Or.inl rfl
  · exact Or.inr rfl

theorem twoDone_two (j j' : Nat) (cb cb' : Callback) (hj : j < 2) (hj' : j' < 2) (hne : j ≠ j') :
    twoDone 2 j j' cb cb' = [.done cb, .done cb'] ∨ twoDone 2 j j' cb cb' = [.done cb', .done cb] := by
  have : (j = 0 ∧ j' = 1) ∨ (j = 1 ∧ j' = 0) := by omega
  rcases this with ⟨rfl, rfl⟩ | ⟨rfl, rfl⟩
  · exact Or.inl rfl
  · exact Or.inr rfl

theorem oneCall_reachable (c : Call) (k : Nat) (acts : List SingleAction) (s : SingleState)
    (h : run SingleState.step (SingleState.observe (NewPromise [c]) k) acts = some s) :
    OneCallInv c k s :=
  run_invariant SingleState.step (OneCallInv c k) (fun s a s' => oneCall_step c k s s' a)
    acts _ s (oneCall_init c k) h

theorem twoCalls_reachable (c₁ c₂ : Call) (k : Nat) (acts : List SingleAction) (s : SingleState)
    (h : run SingleState.step (SingleState.observe (NewPromise [c₁, c₂]) k) acts = some s) :
    TwoCallsInv c₁ c₂ k s :=
  run_invariant SingleState.step (TwoCallsInv c₁ c₂ k) (fun s a s' => twoCalls_step c₁ c₂ k s s' a)
    acts _ s (twoCalls_init c₁ c₂ k) h

/-- One call by the executor, one `Then`: the observer is waiting or has invoked
the matching callback once, and the latter is inevitable. -/
theorem oneCall_one_observer (c : Call) :
    (∀ acts s, run SingleState.step (SingleState.observe (NewPromise [c]) 1) acts = some s →
      s.thens = [.waiting] ∨ s.thens = [.done c.toCallback]) ∧
    Inevitable SingleState.step (fun s => s.thens = [.done c.toCallback])
      (SingleState.observe (NewPromise [c]) 1) := by
  constructor
  · intro acts s h
    obtain ⟨-, ⟨-, ht⟩ | ⟨-, j, hj, ht⟩⟩ := oneCall_reachable c 1 acts s h
    · exact Or.inl ht
    · exact Or.inr (ht.trans (oneDone_one j _ hj))
  · refine Inevitable.mono _ _ _ ?_ _ (oneCall_inevitable c 1 (by omega))
    rintro s ⟨j, hj, ht⟩
    exact ht.trans (oneDone_one j _ hj)

/-- One call by the executor, two `Then` calls: exactly one observer gets the
outcome, the other stays blocked. -/
theorem oneCall_two_observers (c : Call) :
    (∀ acts s, run SingleState.step (SingleState.observe (NewPromise [c]) 2) acts = some s →
      s.thens = [.waiting, .waiting] ∨ s.thens = [.done c.toCallback, .waiting] ∨
        s.thens = [.waiting, .done c.toCallback]) ∧
    Inevitable SingleState.step
      (fun s => s.thens = [.done c.toCallback, .waiting] ∨ s.thens = [.waiting, .done c.toCallback])
      (SingleState.observe (NewPromise [c]) 2) := by
  constructor
  · intro acts s h
    obtain ⟨-, ⟨-, ht⟩ | ⟨-, j, hj, ht⟩⟩ := oneCall_reachable c 2 acts s h
    · exact Or.inl ht
    · rw [ht]
      exact Or.inr (oneDone_two j _ hj)
  · refine Inevitable.mono _ _ _ ?_ _ (oneCall_inevitable c 2 (by omega))
    rintro s ⟨j, hj, ht⟩
    rw [ht]
    exact oneDone_two j _ hj

/-- Two calls by the executor, one `Then`: only the first call is delivered. -/
theorem twoCalls_one_observer (c₁ c₂ : Call) :
    (∀ acts s, run SingleState.step (SingleState.observe (NewPromise [c₁, c₂]) 1) acts = some s →
      s.thens = [.waiting] ∨ s.thens = [.done c₁.toCallback]) ∧
    Inevitable SingleState.step (fun s => s.thens = [.done c₁.toCallback])
      (SingleState.observe (NewPromise [c₁, c₂]) 1) := by
  constructor
  · intro acts s h
    obtain ⟨-, ⟨-, ht⟩ | ⟨-, j, hj, ht⟩ | ⟨-, j, j', hj, hj', hne, -⟩⟩ :=
      twoCalls_reachable c₁ c₂ 1 acts s h
    · exact Or.inl ht
    · exact Or.inr (ht.trans (oneDone_one j _ hj))
    · omega
  · refine Inevitable.mono _ _ _ ?_ _ (twoCalls_first_inevitable c₁ c₂ 1 (by omega))
    rintro s (⟨j, hj, ht⟩ | ⟨j, j', hj, hj', hne, -⟩)
    · exact ht.trans (oneDone_one j _ hj)
    · omega

/-- Two calls by the executor, two `Then` calls: the first delivery is the first
call, and the second call is delivered to the other observer. -/
theorem twoCalls_two_observers (c₁ c₂ : Call) :
    (∀ acts s, run SingleState.step (SingleState.observe (NewPromise [c₁, c₂]) 2) acts = some s →
      s.thens = [.waiting, .waiting] ∨
      s.thens = [.done c₁.toCallback, .waiting] ∨ s.thens = [.waiting, .done c₁.toCallback] ∨
      s.thens = [.done c₁.toCallback, .done c₂.toCallback] ∨
      s.thens = [.done c₂.toCallback, .done c₁.toCallback]) ∧
    Inevitable SingleState.step
      (fun s => s.thens = [.done c₁.toCallback, .done c₂.toCallback] ∨
        s.thens = [.done c₂.toCallback, .done c₁.toCallback])
      (SingleState.observe (NewPromise [c₁, c₂]) 2) := by
  constructor
  · intro acts s h
    obtain ⟨-, ⟨-, ht⟩ | ⟨-, j, hj, ht⟩ | ⟨-, j, j', hj, hj', hne, ht⟩⟩ :=
      twoCalls_reachable c₁ c₂ 2 acts s h
    · exact Or.inl ht
    · rw [ht]
      rcases oneDone_two j c₁.toCallback hj with h' | h'
      · exact Or.inr (Or.inl h')
      · exact Or.inr (Or.inr (Or.inl h'))
    · rw [ht]
      rcases twoDone_two j j' c₁.toCallback c₂.toCallback hj hj' hne with h' | h'
      · exact Or.inr (Or.inr (Or.inr (Or.inl h')))
      · exact Or.inr (Or.inr (Or.inr (Or.inr h')))
  · refine Inevitable.mono _ _ _ ?_ _ (twoCalls_second_inevitable c₁ c₂ 2 (by omega))
    rintro s ⟨j, j', hj, hj', hne, ht⟩
    rw [ht]
    exact twoDone_two j j' _ _ hj hj' hne

/-! ## Claims on `NewPromise` and `singlePromise.Then` -/

/-- C1: a promise whose executor calls `resolve(V)` once and never `reject`
makes a single `Then` invoke `succFn` exactly once, with exactly `V`, and never
`errFn`: in every reachable state the `Then` call has made no invocation or the
single invocation `succFn(V...)`, and on every schedule it makes that invocation
and returns.  Symmetrically for an executor that calls `reject(E)` once. -/
theorem C1_then_delivers_the_outcome (V E : List Value) :
    ((∀ acts s,
        run SingleState.step (SingleState.observe (NewPromise [.resolve V]) 1) acts = some s →
          s.thens = [{ returned := false, calls := [] }] ∨
          s.thens = [{ returned := true, calls := [.succFn V] }]) ∧
      Inevitable SingleState.step
        (fun s => s.thens = [{ returned := true, calls := [.succFn V] }])
        (SingleState.observe (NewPromise [.resolve V]) 1)) ∧
    ((∀ acts s,
        run SingleState.step (SingleState.observe (NewPromise [.reject E]) 1) acts = some s →
          s.thens = [{ returned := false, calls := [] }] ∨
          s.thens = [{ returned := true, calls := [.errFn E] }]) ∧
      Inevitable SingleState.step
        (fun s => s.thens = [{ returned := true, calls := [.errFn E] }])
        (SingleState.observe (NewPromise [.reject E]) 1)) :=
  ⟨oneCall_one_observer (.resolve V), oneCall_one_observer (.reject E)⟩

/-- C2, as stated, fails: with an executor that calls `resolve("v")` and then
`reject(e)` and two `Then` calls, it is not the case that every callback
invocation delivers the first call's value-set: on the schedule below the second
`Then` call invokes `errFn` with the value-set of the second call. -/
theorem C2_second_outcome_observable :
    ¬ (∀ acts s,
        run SingleState.step
          (SingleState.observe (NewPromise [.resolve [.str "v"], .reject [.err "e"]]) 2) acts
          = some s →
        ∀ t ∈ s.thens, ∀ cb ∈ t.calls, cb = Callback.succFn [.str "v"]) := by
  intro h
  have h' := h [.eval, .select 0, .eval, .select 1]
    { p := { d := [true], eval := .running [] }
      thens := [{ returned := true, calls := [.succFn [.str "v"]] },
                { returned := true, calls := [.errFn [.err "e"]] }] }
    (by decide) { returned := true, calls := [.errFn [.err "e"]] } (by simp)
    (.errFn [.err "e"]) (by simp)
  exact absurd h' (by simp)

/-- C2, amended: when the executor calls `resolve(V)` and then `reject(E)`, a
single `Then` call delivers `V` to `succFn`, and `E` is never delivered; of two
`Then` calls, the first to receive delivers `V` to `succFn` and the other one
delivers `E` to `errFn`.  Symmetrically when `reject(E)` is called first. -/
theorem C2_deliveries_follow_call_order (V E : List Value) :
    (((∀ acts s,
        run SingleState.step
          (SingleState.observe (NewPromise [.resolve V, .reject E]) 1) acts = some s →
          s.thens = [{ returned := false, calls := [] }] ∨
          s.thens = [{ returned := true, calls := [.succFn V] }]) ∧
      Inevitable SingleState.step
        (fun s => s.thens = [{ returned := true, calls := [.succFn V] }])
        (SingleState.observe (NewPromise [.resolve V, .reject E]) 1)) ∧
     ((∀ acts s,
        run SingleState.step
          (SingleState.observe (NewPromise [.resolve V, .reject E]) 2) acts = some s →
          s.thens = [{ returned := false, calls := [] }, { returned := false, calls := [] }] ∨
          s.thens = [{ returned := true, calls := [.succFn V] }, { returned := false, calls := [] }] ∨
          s.thens = [{ returned := false, calls := [] }, { returned := true, calls := [.succFn V] }] ∨
          s.thens = [{ returned := true, calls := [.succFn V] },
                     { returned := true, calls := [.errFn E] }] ∨
          s.thens = [{ returned := true, calls := [.errFn E] },
                     { returned := true, calls := [.succFn V] }]) ∧
      Inevitable SingleState.step
        (fun s =>
          s.thens = [{ returned := true, calls := [.succFn V] },
                     { returned := true, calls := [.errFn E] }] ∨
          s.thens = [{ returned := true, calls := [.errFn E] },
                     { returned := true, calls := [.succFn V] }])
        (SingleState.observe (NewPromise [.resolve V, .reject E]) 2))) ∧
    (((∀ acts s,
        run SingleState.step
          (SingleState.observe (NewPromise [.reject E, .resolve V]) 1) acts = some s →
          s.thens = [{ returned := false, calls := [] }] ∨
          s.thens = [{ returned := true, calls := [.errFn E] }]) ∧
      Inevitable SingleState.step
        (fun s => s.thens = [{ returned := true, calls := [.errFn E] }])
        (SingleState.observe (NewPromise [.reject E, .resolve V]) 1)) ∧
     ((∀ acts s,
        run SingleState.step
          (SingleState.observe (NewPromise [.reject E, .resolve V]) 2) acts = some s →
          s.thens = [{ returned := false, calls := [] }, { returned := false, calls := [] }] ∨
          s.thens = [{ returned := true, calls := [.errFn E] }, { returned := false, calls := [] }] ∨
          s.thens = [{ returned := false, calls := [] }, { returned := true, calls := [.errFn E] }] ∨
          s.thens = [{ returned := true, calls := [.errFn E] },
                     { returned := true, calls := [.succFn V] }] ∨
          s.thens = [{ returned := true, calls := [.succFn V] },
                     { returned := true, calls := [.errFn E] }]) ∧
      Inevitable SingleState.step
        (fun s =>
          s.thens = [{ returned := true, calls := [.errFn E] },
                     { returned := true, calls := [.succFn V] }] ∨
          s.thens = [{ returned := true, calls := [.succFn V] },
                     { returned := true, calls := [.errFn E] }])
        (SingleState.observe (NewPromise [.reject E, .resolve V]) 2))) :=
  ⟨⟨twoCalls_one_observer (.resolve V) (.reject E), twoCalls_two_observers (.resolve V) (.reject E)⟩,
   ⟨twoCalls_one_observer (.reject E) (.resolve V), twoCalls_two_observers (.reject E) (.resolve V)⟩⟩

/-- C3, as stated, fails: for a promise resolved once with `"v"` and two `Then`
calls, no schedule reaches a state in which both calls have invoked a callback. -/
theorem C3_second_then_never_fires :
    ¬ ∃ acts s,
        run SingleState.step (SingleState.observe (NewPromise [.resolve [.str "v"]]) 2) acts
          = some s ∧
        ∀ t ∈ s.thens, t.calls ≠ [] := by
  rintro ⟨acts, s, h, hall⟩
  rcases (oneCall_two_observers (.resolve [.str "v"])).1 acts s h with ht | ht | ht <;>
    · rw [ht] at hall
      simp [ThenCall.waiting] at hall

/-- C3, amended: for a promise settled exactly once (resolved with `V`, or
rejected with `E`) and two `Then` calls on it, exactly one of the two calls
invokes the matching callback, once, with the value-set; the other call invokes
no callback and stays blocked. -/
theorem C3_one_observer_per_settlement (V E : List Value) :
    ((∀ acts s,
        run SingleState.step (SingleState.observe (NewPromise [.resolve V]) 2) acts = some s →
          s.thens = [{ returned := false, calls := [] }, { returned := false, calls := [] }] ∨
          s.thens = [{ returned := true, calls := [.succFn V] }, { returned := false, calls := [] }] ∨
          s.thens = [{ returned := false, calls := [] }, { returned := true, calls := [.succFn V] }]) ∧
      Inevitable SingleState.step
        (fun s =>
          s.thens = [{ returned := true, calls := [.succFn V] }, { returned := false, calls := [] }] ∨
          s.thens = [{ returned := false, calls := [] }, { returned := true, calls := [.succFn V] }])
        (SingleState.observe (NewPromise [.resolve V]) 2)) ∧
    ((∀ acts s,
        run SingleState.step (SingleState.observe (NewPromise [.reject E]) 2) acts = some s →
          s.thens = [{ returned := false, calls := [] }, { returned := false, calls := [] }] ∨
          s.thens = [{ returned := true, calls := [.errFn E] }, { returned := false, calls := [] }] ∨
          s.thens = [{ returned := false, calls := [] }, { returned := true, calls := [.errFn E] }]) ∧
      Inevitable SingleState.step
        (fun s =>
          s.thens = [{ returned := true, calls := [.errFn E] }, { returned := false, calls := [] }] ∨
          s.thens = [{ returned := false, calls := [] }, { returned := true, calls := [.errFn E] }])
        (SingleState.observe (NewPromise [.reject E]) 2)) :=
  ⟨oneCall_two_observers (.resolve V), oneCall_two_observers (.reject E)⟩

/-! ## `multiPromise.Then`: the moves -/

theorem step_childThen_some (mp : multiPromise) (s s' : MultiState) (i : Nat)
    (h : mp.step s (.childThen i) = some s') :
    s.collectors[i]? = some .inThen ∧
    ((∃ res, mp.promises[i]? = some (.succFn res) ∧
        s' = { s with results := s.results.set i res,
                      collectors := s.collectors.set i .sendSuccess }) ∨
     (∃ e, mp.promises[i]? = some (.errFn e) ∧
        s' = { s with errs := s.errs.set i e, collectors := s.collectors.set i .sendErr })) := by
  simp only [multiPromise.step] at h
  split at h
  · next hc hp =>
    simp only [Option.some.injEq] at h
    exact ⟨hc, Or.inl ⟨_, hp, h.symm⟩⟩
  · next hc hp =>
    simp only [Option.some.injEq] at h
    exact ⟨hc, Or.inr ⟨_, hp, h.symm⟩⟩
  · simp at h

theorem step_successDone_some (mp : multiPromise) (s s' : MultiState) (i : Nat)
    (h : mp.step s (.successDone i) = some s') :
    s.pc = .monitor ∧ s.collectors[i]? = some .sendSuccess ∧
    s' = { s with
      collectors := s.collectors.set i .exited
      successCounter := s.successCounter + 1
      pc := if s.successCounter + 1 = mp.promises.length then .flatten else .monitor } := by
  simp only [multiPromise.step] at h
  split at h
  · next hpc hc =>
    simp only [Option.some.injEq] at h
    exact ⟨hpc, hc, h.symm⟩
  · simp at h

theorem step_errDone_some (mp : multiPromise) (s s' : MultiState) (i : Nat)
    (h : mp.step s (.errDone i) = some s') :
    s.pc = .monitor ∧ s.collectors[i]? = some .sendErr ∧
    s' = { s with
      collectors := s.collectors.set i .exited
      pc := .returned
      calls := s.calls ++ [.errFn [.slice (s.errs.getD i [])]] } := by
  simp only [multiPromise.step] at h
  split at h
  · next hpc hc =>
    simp only [Option.some.injEq] at h
    exact ⟨hpc, hc, h.symm⟩
  · simp at h

theorem step_poll_some (mp : multiPromise) (s s' : MultiState)
    (h : mp.step s .poll = some s') : s.pc = .monitor ∧ s' = s := by
  simp only [multiPromise.step] at h
  split at h
  · next hpc =>
    split at h
    · simp at h
    · simp only [Option.some.injEq] at h
      exact ⟨hpc, h.symm⟩
  · simp at h

theorem step_flatten_some (mp : multiPromise) (s s' : MultiState)
    (h : mp.step s .flatten = some s') :
    s.pc = .flatten ∧
    s' = { s with pc := .returned,
                  calls := s.calls ++ [.succFn [.slice (flatResults s.results)]] } := by
  simp only [multiPromise.step] at h
  split at h
  · next hpc =>
    simp only [Option.some.injEq] at h
    exact ⟨hpc, h.symm⟩
  · simp at h

theorem sum_map_set {α : Type} (f : α → Nat) :
    ∀ (l : List α) (i : Nat) (a b : α), l[i]? = some b →
      ((l.set i a).map f).sum + f b = (l.map f).sum + f a := by
  intro l
  induction l with
  | nil => intro i a b h; simp at h
  | cons x xs ih =>
    intro i a b h
    cases i with
    | zero =>
      simp only [List.getElem?_cons_zero, Option.some.injEq] at h
      subst h
      simp only [List.set_cons_zero, List.map_cons, List.sum_cons]
      omega
    | succ i =>
      simp only [List.getElem?_cons_succ] at h
      have := ih i a b h
      simp only [List.set_cons_succ, List.map_cons, List.sum_cons]
      omega

theorem countP_set_of_getElem? {α : Type} (p : α → Bool) (l : List α) (i : Nat) (a b : α)
    (h : l[i]? = some b) :
    (l.set i a).countP p + (if p b = true then 1 else 0)
      = l.countP p + (if p a = true then 1 else 0) := by
  induction l generalizing i with
  | nil => simp at h
  | cons x xs ih =>
    cases i with
    | zero =>
      simp only [List.getElem?_cons_zero, Option.some.injEq] at h
      subst h
      simp only [List.set_cons_zero, List.countP_cons]
      omega
    | succ i =>
      simp only [List.getElem?_cons_succ] at h
      have := ih i h
      simp only [List.set_cons_succ, List.countP_cons]
      omega

theorem exists_not_of_countP_lt {α : Type} (p : α → Bool) (l : List α)
    (h : l.countP p < l.length) : ∃ (i : Nat) (c : α), l[i]? = some c ∧ p c = false := by
  by_contra hne
  have hall : ∀ a ∈ l, p a = true := by
    intro a ha
    obtain ⟨i, hi⟩ := List.getElem?_of_mem ha
    by_contra hp
    exact hne ⟨i, a, hi, by simpa using hp⟩
  have := List.countP_eq_length.mpr hall
  omega

theorem flatResults_eq_flatten (results : List (List Value)) :
    flatResults results = results.flatten := by
  have key : ∀ (l : List (List Value)) (acc : List Value),
      l.foldl (fun acc res => acc ++ res) acc = acc ++ l.flatten := by
    intro l
    induction l with
    | nil => intro acc; simp
    | cons x xs ih => intro acc; simp [ih]
  simpa [flatResults] using key results []

theorem lt_length_of_getElem? {α : Type} (l : List α) (i : Nat) (a : α) (h : l[i]? = some a) :
    i < l.length := by
  obtain ⟨hi, -⟩ := List.getElem?_eq_some.mp h
  exact hi

/-! ## `multiPromise.Then`: the invariant -/

theorem multi_init (mp : multiPromise) : MultiInv mp mp.Then where
  len_collectors := by simp [multiPromise.Then]
  len_results := by simp [multiPromise.Then]
  len_errs := by simp [multiPromise.Then]
  sendSuccess := by
    intro i h
    simp only [multiPromise.Then, List.getElem?_replicate] at h
    split at h <;> simp at h
  sendErr := by
    intro i h
    simp only [multiPromise.Then, List.getElem?_replicate] at h
    split at h <;> simp at h
  exited := by
    intro i h
    simp only [multiPromise.Then, List.getElem?_replicate] at h
    split at h <;> simp at h
  counter := by
    intro _
    symm
    simp only [multiPromise.Then]
    rw [List.countP_eq_zero]
    intro a ha
    rw [List.mem_replicate] at ha
    rw [ha.2]
    decide
  monitor := by
    intro _
    exact ⟨rfl, fun h => List.length_pos.mpr h⟩
  flatten := by
    intro h
    simp [multiPromise.Then] at h
  returned := by
    intro h
    simp [multiPromise.Then] at h

theorem inv_childThen_succ (mp : multiPromise) (s : MultiState) (i : Nat) (res : List Value)
    (inv : MultiInv mp s) (hc : s.collectors[i]? = some .inThen)
    (hp : mp.promises[i]? = some (.succFn res)) :
    MultiInv mp { s with results := s.results.set i res,
                         collectors := s.collectors.set i .sendSuccess } := by
  have hi : i < s.collectors.length := lt_length_of_getElem? _ _ _ hc
  have hir : i < s.results.length := by rw [inv.len_results, ← inv.len_collectors]; exact hi
  refine
    { len_collectors := by simpa using inv.len_collectors
      len_results := by simpa using inv.len_results
      len_errs := inv.len_errs
      sendSuccess := ?_, sendErr := ?_, exited := ?_, counter := ?_
      monitor := inv.monitor, flatten := inv.flatten, returned := ?_ }
  · intro j hj
    simp only [List.getElem?_set] at hj ⊢
    by_cases hij : i = j
    · subst hij
      simp only [if_true, hir]
      exact ⟨res, hp, rfl⟩
    · simp only [hij, if_false] at hj ⊢
      exact inv.sendSuccess j hj
  · intro j hj
    simp only [List.getElem?_set] at hj
    by_cases hij : i = j
    · subst hij
      simp [hi] at hj
    · simp only [hij, if_false] at hj
      exact inv.sendErr j hj
  · intro j hj
    simp only [List.getElem?_set] at hj ⊢
    by_cases hij : i = j
    · subst hij
      simp [hi] at hj
    · simp only [hij, if_false] at hj ⊢
      exact inv.exited j hj
  · intro hpc
    have h1 := inv.counter hpc
    have h2 := countP_set_of_getElem? (· == CollectorPc.exited) s.collectors i .sendSuccess _ hc
    simp only [show (CollectorPc.inThen == CollectorPc.exited) = false from rfl,
      show (CollectorPc.sendSuccess == CollectorPc.exited) = false from rfl] at h2
    simp only [Bool.false_eq_true, if_false, Nat.add_zero] at h2
    show s.successCounter = _
    rw [h1]
    exact h2.symm
  · intro hpc
    rcases inv.returned hpc with ⟨-, hall⟩ | hr
    · have := hall i (by rw [← inv.len_collectors]; exact hi)
      rw [hc] at this
      simp at this
    · exact Or.inr hr

theorem inv_childThen_err (mp : multiPromise) (s : MultiState) (i : Nat) (e : List Value)
    (inv : MultiInv mp s) (hc : s.collectors[i]? = some .inThen)
    (hp : mp.promises[i]? = some (.errFn e)) :
    MultiInv mp { s with errs := s.errs.set i e, collectors := s.collectors.set i .sendErr } := by
  have hi : i < s.collectors.length := lt_length_of_getElem? _ _ _ hc
  have hie : i < s.errs.length := by rw [inv.len_errs, ← inv.len_collectors]; exact hi
  refine
    { len_collectors := by simpa using inv.len_collectors
      len_results := inv.len_results
      len_errs := by simpa using inv.len_errs
      sendSuccess := ?_, sendErr := ?_, exited := ?_, counter := ?_
      monitor := inv.monitor, flatten := inv.flatten, returned := ?_ }
  · intro j hj
    simp only [List.getElem?_set] at hj
    by_cases hij : i = j
    · subst hij
      simp [hi] at hj
    · simp only [hij, if_false] at hj
      exact inv.sendSuccess j hj
  · intro j hj
    simp only [List.getElem?_set] at hj ⊢
    by_cases hij : i = j
    · subst hij
      simp only [if_true, hie]
      exact ⟨e, hp, rfl⟩
    · simp only [hij, if_false] at hj ⊢
      exact inv.sendErr j hj
  · intro j hj
    simp only [List.getElem?_set] at hj
    by_cases hij : i = j
    · subst hij
      simp [hi] at hj
    · simp only [hij, if_false] at hj
      exact inv.exited j hj
  · intro hpc
    have h1 := inv.counter hpc
    have h2 := countP_set_of_getElem? (· == CollectorPc.exited) s.collectors i .sendErr _ hc
    simp only [show (CollectorPc.inThen == CollectorPc.exited) = false from rfl,
      show (CollectorPc.sendErr == CollectorPc.exited) = false from rfl] at h2
    simp only [Bool.false_eq_true, if_false, Nat.add_zero] at h2
    show s.successCounter = _
    rw [h1]
    exact h2.symm
  · intro hpc
    rcases inv.returned hpc with ⟨-, hall⟩ | hr
    · have := hall i (by rw [← inv.len_collectors]; exact hi)
      rw [hc] at this
      simp at this
    · exact Or.inr hr

theorem inv_successDone (mp : multiPromise) (s : MultiState) (i : Nat)
    (inv : MultiInv mp s) (hpc : s.pc = .monitor) (hc : s.collectors[i]? = some .sendSuccess) :
    MultiInv mp { s with
      collectors := s.collectors.set i .exited
      successCounter := s.successCounter + 1
      pc := if s.successCounter + 1 = mp.promises.length then .flatten else .monitor } := by
  have hi : i < s.collectors.length := lt_length_of_getElem? _ _ _ hc
  have hcalls : s.calls = [] := (inv.monitor hpc).1
  have hcount : s.successCounter + 1 = (s.collectors.set i .exited).countP (· == .exited) := by
    have h1 := inv.counter (by rw [hpc]; simp)
    have h2 := countP_set_of_getElem? (· == CollectorPc.exited) s.collectors i .exited _ hc
    simp only [show (CollectorPc.sendSuccess == CollectorPc.exited) = false from rfl,
      show (CollectorPc.exited == CollectorPc.exited) = true from rfl] at h2
    simp only [Bool.false_eq_true, if_false, if_true, Nat.add_zero] at h2
    omega
  have hle : s.successCounter + 1 ≤ mp.promises.length := by
    rw [hcount, ← inv.len_collectors, ← List.length_set s.collectors i .exited]
    exact List.countP_le_length _
  refine
    { len_collectors := by simpa using inv.len_collectors
      len_results := inv.len_results
      len_errs := inv.len_errs
      sendSuccess := ?_, sendErr := ?_, exited := ?_, counter := fun _ => hcount
      monitor := ?_, flatten := ?_, returned := ?_ }
  · intro j hj
    simp only [List.getElem?_set] at hj
    by_cases hij : i = j
    · subst hij
      simp [hi] at hj
    · simp only [hij, if_false] at hj
      exact inv.sendSuccess j hj
  · intro j hj
    simp only [List.getElem?_set] at hj
    by_cases hij : i = j
    · subst hij
      simp [hi] at hj
    · simp only [hij, if_false] at hj
      exact inv.sendErr j hj
  · intro j hj
    simp only [List.getElem?_set] at hj
    by_cases hij : i = j
    · subst hij
      exact Or.inl (inv.sendSuccess i hc)
    · simp only [hij, if_false] at hj
      rcases inv.exited j hj with hl | ⟨E, -, -, hret⟩
      · exact Or.inl hl
      · rw [hpc] at hret
        simp at hret
  · intro hpc'
    refine ⟨hcalls, fun _ => ?_⟩
    show s.successCounter + 1 < mp.promises.length
    by_cases heq : s.successCounter + 1 = mp.promises.length
    · simp [heq] at hpc'
    · omega
  · intro hpc'
    refine ⟨hcalls, ?_⟩
    show s.successCounter + 1 = mp.promises.length
    by_cases heq : s.successCounter + 1 = mp.promises.length
    · exact heq
    · simp [heq] at hpc'
  · intro hpc'
    by_cases heq : s.successCounter + 1 = mp.promises.length <;> simp [heq] at hpc'

theorem inv_errDone (mp : multiPromise) (s : MultiState) (i : Nat)
    (inv : MultiInv mp s) (hpc : s.pc = .monitor) (hc : s.collectors[i]? = some .sendErr) :
    MultiInv mp { s with
      collectors := s.collectors.set i .exited
      pc := .returned
      calls := s.calls ++ [.errFn [.slice (s.errs.getD i [])]] } := by
  have hi : i < s.collectors.length := lt_length_of_getElem? _ _ _ hc
  have hcalls : s.calls = [] := (inv.monitor hpc).1
  obtain ⟨E, hpE, heE⟩ := inv.sendErr i hc
  have hgetD : s.errs.getD i [] = E := by
    rw [List.getD_eq_getElem?_getD, heE]
    rfl
  have hne : mp.promises ≠ [] := by
    intro h
    rw [h] at hpE
    simp at hpE
  refine
    { len_collectors := by simpa using inv.len_collectors
      len_results := inv.len_results
      len_errs := inv.len_errs
      sendSuccess := ?_, sendErr := ?_, exited := ?_, counter := ?_
      monitor := ?_, flatten := ?_, returned := ?_ }
  · intro j hj
    simp only [List.getElem?_set] at hj
    by_cases hij : i = j
    · subst hij
      simp [hi] at hj
    · simp only [hij, if_false] at hj
      exact inv.sendSuccess j hj
  · intro j hj
    simp only [List.getElem?_set] at hj
    by_cases hij : i = j
    · subst hij
      simp [hi] at hj
    · simp only [hij, if_false] at hj
      exact inv.sendErr j hj
  · intro j hj
    simp only [List.getElem?_set] at hj
    by_cases hij : i = j
    · subst hij
      refine Or.inr ⟨E, hpE, ?_, rfl⟩
      show s.calls ++ [Callback.errFn [Value.slice (s.errs.getD i [])]] = _
      rw [hcalls, hgetD]
      rfl
    · simp only [hij, if_false] at hj
      rcases inv.exited j hj with hl | ⟨E', -, -, hret⟩
      · exact Or.inl hl
      · rw [hpc] at hret
        simp at hret
  · intro hpc'
    exact absurd rfl hpc'
  · intro hpc'
    simp at hpc'
  · intro hpc'
    simp at hpc'
  · intro _
    refine Or.inr ⟨i, E, hpE, ?_, (inv.monitor hpc).2 hne⟩
    show s.calls ++ [Callback.errFn [Value.slice (s.errs.getD i [])]] = _
    rw [hcalls, hgetD]
    rfl

theorem inv_flatten (mp : multiPromise) (s : MultiState)
    (inv : MultiInv mp s) (hpc : s.pc = .flatten) :
    MultiInv mp { s with
      pc := .returned
      calls := s.calls ++ [.succFn [.slice (flatResults s.results)]] } := by
  obtain ⟨hcalls, hN⟩ := inv.flatten hpc
  have hall : ∀ i : Nat, i < mp.promises.length → s.collectors[i]? = some .exited := by
    intro i hi
    have h1 := inv.counter (by rw [hpc]; simp)
    have h2 : s.collectors.countP (· == .exited) = s.collectors.length := by
      rw [← h1, hN, inv.len_collectors]
    have h3 := List.countP_eq_length.mp h2
    have hi' : i < s.collectors.length := by rw [inv.len_collectors]; exact hi
    have h4 := h3 s.collectors[i] (List.getElem_mem hi')
    rw [List.getElem?_eq_getElem hi']
    simpa using h4
  refine
    { len_collectors := inv.len_collectors
      len_results := inv.len_results
      len_errs := inv.len_errs
      sendSuccess := inv.sendSuccess, sendErr := inv.sendErr, exited := ?_, counter := ?_
      monitor := ?_, flatten := ?_, returned := ?_ }
  · intro j hj
    rcases inv.exited j hj with hl | ⟨E', -, -, hret⟩
    · exact Or.inl hl
    · rw [hpc] at hret
      simp at hret
  · intro hpc'
    exact absurd rfl hpc'
  · intro hpc'
    simp at hpc'
  · intro hpc'
    simp at hpc'
  · intro _
    refine Or.inl ⟨?_, hall⟩
    show s.calls ++ [Callback.succFn [Value.slice (flatResults s.results)]] = _
    rw [hcalls]
    rfl

theorem multi_step (mp : multiPromise) (s s' : MultiState) (a : MultiAction)
    (inv : MultiInv mp s) (h : mp.step s a = some s') : MultiInv mp s' := by
  cases a with
  | childThen i =>
    obtain ⟨hc, ⟨res, hp, rfl⟩ | ⟨e, hp, rfl⟩⟩ := step_childThen_some mp s s' i h
    · exact inv_childThen_succ mp s i res inv hc hp
    · exact inv_childThen_err mp s i e inv hc hp
  | successDone i =>
    obtain ⟨hpc, hc, rfl⟩ := step_successDone_some mp s s' i h
    exact inv_successDone mp s i inv hpc hc
  | errDone i =>
    obtain ⟨hpc, hc, rfl⟩ := step_errDone_some mp s s' i h
    exact inv_errDone mp s i inv hpc hc
  | poll =>
    obtain ⟨-, rfl⟩ := step_poll_some mp s s' h
    exact inv
  | flatten =>
    obtain ⟨hpc, rfl⟩ := step_flatten_some mp s s' h
    exact inv_flatten mp s inv hpc

theorem multi_reachable (mp : multiPromise) (acts : List MultiAction) (s : MultiState)
    (h : run mp.step mp.Then acts = some s) : MultiInv mp s :=
  run_invariant mp.step (MultiInv mp) (fun s a s' => multi_step mp s s' a) acts _ s
    (multi_init mp) h

/-! ## `multiPromise.Then`: progress and termination -/

theorem progress_some (mp : multiPromise) (s s' : MultiState) (a : MultiAction)
    (h : mp.progress s a = some s') : mp.step s a = some s' ∧ a ≠ .poll := by
  unfold multiPromise.progress at h
  split at h
  · simp at h
  · exact ⟨h, by assumption⟩

theorem multi_fuel (mp : multiPromise) (s s' : MultiState) (a : MultiAction)
    (h : mp.progress s a = some s') : s'.fuel < s.fuel := by
  obtain ⟨h, hpoll⟩ := progress_some mp s s' a h
  cases a with
  | childThen i =>
    obtain ⟨hc, ⟨res, hp, rfl⟩ | ⟨e, hp, rfl⟩⟩ := step_childThen_some mp s s' i h
    · have := sum_map_set CollectorPc.weight s.collectors i .sendSuccess _ hc
      simp only [CollectorPc.weight] at this
      simp only [MultiState.fuel]
      omega
    · have := sum_map_set CollectorPc.weight s.collectors i .sendErr _ hc
      simp only [CollectorPc.weight] at this
      simp only [MultiState.fuel]
      omega
  | successDone i =>
    obtain ⟨hpc, hc, rfl⟩ := step_successDone_some mp s s' i h
    have := sum_map_set CollectorPc.weight s.collectors i .exited _ hc
    simp only [CollectorPc.weight] at this
    simp only [MultiState.fuel, hpc]
    split <;> simp only [MonitorPc.weight] <;> omega
  | errDone i =>
    obtain ⟨hpc, hc, rfl⟩ := step_errDone_some mp s s' i h
    have := sum_map_set CollectorPc.weight s.collectors i .exited _ hc
    simp only [CollectorPc.weight] at this
    simp only [MultiState.fuel, hpc, MonitorPc.weight]
    omega
  | poll => exact absurd rfl hpoll
  | flatten =>
    obtain ⟨hpc, rfl⟩ := step_flatten_some mp s s' h
    simp only [MultiState.fuel, hpc, MonitorPc.weight]
    omega

theorem multi_enabled (mp : multiPromise) (s : MultiState) (inv : MultiInv mp s)
    (hne : mp.promises ≠ []) (hpc : s.pc ≠ .returned) :
    ∃ a s', mp.progress s a = some s' := by
  cases hs : s.pc with
  | returned => exact absurd hs hpc
  | flatten =>
    refine ⟨.flatten, ?_⟩
    simp [multiPromise.progress, multiPromise.step, hs]
  | monitor =>
    have hlt := (inv.monitor hs).2 hne
    rw [inv.counter hpc, ← inv.len_collectors] at hlt
    obtain ⟨i, c, hc, hcne⟩ := exists_not_of_countP_lt _ _ hlt
    cases c with
    | exited => simp at hcne
    | sendSuccess =>
      refine ⟨.successDone i, ?_⟩
      simp [multiPromise.progress, multiPromise.step, hs, hc]
    | sendErr =>
      refine ⟨.errDone i, ?_⟩
      simp [multiPromise.progress, multiPromise.step, hs, hc]
    | inThen =>
      have hi : i < mp.promises.length := by
        rw [← inv.len_collectors]
        exact lt_length_of_getElem? _ _ _ hc
      have hp : mp.promises[i]? = some mp.promises[i] := List.getElem?_eq_getElem hi
      cases hpi : mp.promises[i] with
      | succFn res =>
        rw [hpi] at hp
        refine ⟨.childThen i, ?_⟩
        simp [multiPromise.progress, multiPromise.step, hc, hp]
      | errFn e =>
        rw [hpi] at hp
        refine ⟨.childThen i, ?_⟩
        simp [multiPromise.progress, multiPromise.step, hc, hp]

theorem multi_inevitable (mp : multiPromise) (hne : mp.promises ≠ []) :
    Inevitable mp.progress (fun s => s.pc = .returned ∧ MultiInv mp s) mp.Then := by
  refine Inevitable.of_measure mp.progress _ (MultiInv mp) MultiState.fuel ?_ _ (multi_init mp)
  intro s inv
  by_cases hpc : s.pc = .returned
  · exact Or.inl ⟨hpc, inv⟩
  · refine Or.inr ⟨multi_enabled mp s inv hne hpc, fun a s' h => ?_⟩
    exact ⟨multi_step mp s s' a inv (progress_some mp s s' a h).1, multi_fuel mp s s' a h⟩

/-! ## `multiPromise.Then`: the outcome -/

theorem all_exited_of_flatten (mp : multiPromise) (s : MultiState) (inv : MultiInv mp s)
    (hpc : s.pc = .flatten) (i : Nat) (hi : i < mp.promises.length) :
    s.collectors[i]? = some .exited := by
  have h1 := inv.counter (by rw [hpc]; simp)
  have h2 : s.collectors.countP (· == .exited) = s.collectors.length := by
    rw [← h1, (inv.flatten hpc).2, inv.len_collectors]
  have h3 := List.countP_eq_length.mp h2
  have hi' : i < s.collectors.length := by rw [inv.len_collectors]; exact hi
  have h4 := h3 s.collectors[i] (List.getElem_mem hi')
  rw [List.getElem?_eq_getElem hi']
  simpa using h4

/-- With a member that rejects, the monitor never leaves its loop by `break`,
and when `Then` has returned it has invoked `errFn` once, with the value-set of
a rejecting member boxed into one slice, with the success counter below `N`. -/
theorem outcome_of_reject (mp : multiPromise) (s : MultiState) (inv : MultiInv mp s)
    (k : Nat) (E : List Value) (hk : mp.promises[k]? = some (.errFn E)) :
    s.pc ≠ .flatten ∧
    (s.pc = .returned → ∃ (i : Nat) (E' : List Value), mp.promises[i]? = some (.errFn E') ∧
      s.calls = [.errFn [.slice E']] ∧ s.successCounter < mp.promises.length) := by
  have hkN : k < mp.promises.length := lt_length_of_getElem? _ _ _ hk
  constructor
  · intro hpc
    rcases inv.exited k (all_exited_of_flatten mp s inv hpc k hkN) with ⟨V, hV, -⟩ | ⟨E', -, -, hret⟩
    · rw [hk] at hV
      simp at hV
    · rw [hpc] at hret
      simp at hret
  · intro hpc
    rcases inv.returned hpc with ⟨hcalls, hall⟩ | hr
    · rcases inv.exited k (hall k hkN) with ⟨V, hV, -⟩ | ⟨E', -, hcalls', -⟩
      · rw [hk] at hV
        simp at hV
      · rw [hcalls] at hcalls'
        simp at hcalls'
    · exact hr

/-- When every member succeeds, the slots hold the members' value-sets once all
collectors have exited, so `succFn` is invoked with their concatenation boxed
into one slice. -/
theorem outcome_of_all_succeed (Vs : List (List Value)) (s : MultiState)
    (inv : MultiInv (All (Vs.map .succFn)) s) :
    (s.pc ≠ .returned → s.calls = []) ∧
    (s.pc = .returned → s.calls = [.succFn [.slice Vs.flatten]]) := by
  constructor
  · intro hpc
    cases hs : s.pc with
    | returned => exact absurd hs hpc
    | flatten => exact (inv.flatten hs).1
    | monitor => exact (inv.monitor hs).1
  · intro hpc
    rcases inv.returned hpc with ⟨hcalls, hall⟩ | ⟨i, E, hE, -⟩
    · have hres : s.results = Vs := by
        apply List.ext_getElem?
        intro n
        by_cases hn : n < Vs.length
        · have hn' : n < (All (Vs.map Callback.succFn)).promises.length := by
            simpa [All] using hn
          rcases inv.exited n (hall n hn') with ⟨V, hV, hr⟩ | ⟨E, hE, -⟩
          · simp only [All, List.getElem?_map] at hV
            rw [hr]
            cases hv : Vs[n]? with
            | none => simp [hv] at hV
            | some W =>
              simp only [hv, Option.map_some', Option.some.injEq, Callback.succFn.injEq] at hV
              rw [hV]
          · simp only [All, List.getElem?_map] at hE
            cases hv : Vs[n]? <;> simp [hv] at hE
        · have h1 : s.results.length = Vs.length := by
            simpa [All] using inv.len_results
          rw [List.getElem?_eq_none (by omega), List.getElem?_eq_none (by omega)]
      rw [hcalls, hres, flatResults_eq_flatten]
    · simp only [All, List.getElem?_map] at hE
      cases hv : Vs[i]? <;> simp [hv] at hE

theorem outcome_of_single_reject (mp : multiPromise) (s : MultiState) (inv : MultiInv mp s)
    (k : Nat) (E : List Value) (hk : mp.promises[k]? = some (.errFn E))
    (huniq : ∀ (i : Nat) (E' : List Value), mp.promises[i]? = some (.errFn E') → i = k) :
    (s.pc ≠ .returned → s.calls = []) ∧
    (s.pc = .returned → s.calls = [.errFn [.slice E]]) := by
  obtain ⟨hnf, hret⟩ := outcome_of_reject mp s inv k E hk
  constructor
  · intro hpc
    cases hs : s.pc with
    | returned => exact absurd hs hpc
    | flatten => exact absurd hs hnf
    | monitor => exact (inv.monitor hs).1
  · intro hpc
    obtain ⟨i, E', hi, hcalls, -⟩ := hret hpc
    obtain rfl := huniq i E' hi
    rw [hk] at hi
    simp only [Option.some.injEq, Callback.errFn.injEq] at hi
    rw [hcalls, hi]

/-- When every member succeeds, `succFn` is invoked once, with one argument:
the slice holding the members' value-sets concatenated in input order. -/
theorem all_succeed_behaviour (Vs : List (List Value)) :
    (∀ acts s, run (All (Vs.map .succFn)).step (All (Vs.map .succFn)).Then acts = some s →
      (s.calls = [] ∨ s.calls = [.succFn [.slice Vs.flatten]]) ∧
      (s.pc = .returned → s.calls = [.succFn [.slice Vs.flatten]])) ∧
    (0 < Vs.length →
      Inevitable (All (Vs.map .succFn)).progress
        (fun s => s.pc = .returned ∧ s.calls = [.succFn [.slice Vs.flatten]])
        (All (Vs.map .succFn)).Then) := by
  constructor
  · intro acts s h
    obtain ⟨h1, h2⟩ := outcome_of_all_succeed Vs s (multi_reachable _ acts s h)
    refine ⟨?_, h2⟩
    by_cases hpc : s.pc = .returned
    · exact Or.inr (h2 hpc)
    · exact Or.inl (h1 hpc)
  · intro hN
    have hne : (All (Vs.map Callback.succFn)).promises ≠ [] := by
      intro h
      simp only [All, List.map_eq_nil_iff] at h
      rw [h] at hN
      simp at hN
    refine Inevitable.mono _ _ _ ?_ _ (multi_inevitable _ hne)
    rintro s ⟨hpc, inv⟩
    exact ⟨hpc, (outcome_of_all_succeed Vs s inv).2 hpc⟩

/-- When exactly one member rejects, `errFn` is invoked once, with one
argument: the slice holding that member's value-set. -/
theorem single_reject_behaviour (promises : List Promise) (k : Nat) (E : List Value)
    (hk : promises[k]? = some (.errFn E))
    (huniq : ∀ (i : Nat) (E' : List Value), promises[i]? = some (.errFn E') → i = k) :
    (∀ acts s, run (All promises).step (All promises).Then acts = some s →
      s.calls = [] ∨ s.calls = [.errFn [.slice E]]) ∧
    Inevitable (All promises).progress
      (fun s => s.pc = .returned ∧ s.calls = [.errFn [.slice E]]) (All promises).Then := by
  constructor
  · intro acts s h
    obtain ⟨h1, h2⟩ :=
      outcome_of_single_reject (All promises) s (multi_reachable _ acts s h) k E hk huniq
    by_cases hpc : s.pc = .returned
    · exact Or.inr (h2 hpc)
    · exact Or.inl (h1 hpc)
  · have hne : (All promises).promises ≠ [] := by
      intro h
      simp only [All] at h
      rw [h] at hk
      simp at hk
    refine Inevitable.mono _ _ _ ?_ _ (multi_inevitable _ hne)
    rintro s ⟨hpc, inv⟩
    exact ⟨hpc, (outcome_of_single_reject (All promises) s inv k E hk huniq).2 hpc⟩

theorem wrappedFn_nil : wrappedFn [] = [.resolve []] := rfl

theorem wrappedFn_single (v : Value) :
    wrappedFn [v] = if isError v then [.reject [v]] else [.resolve [v]] := by
  simp [wrappedFn]

theorem wrappedFn_many (v w : Value) (rest : List Value) :
    wrappedFn (v :: w :: rest) = [.resolve (v :: w :: rest)] := by
  simp [wrappedFn]

/-! ## Claims on `NewPromiseFunc` -/

/-- C4: the promise returned by `NewPromiseFunc(fn)` is rejected if and only if
`fn` returns exactly one value and that value is a non-nil error; in that case
the executor makes exactly one call, `reject` with a value-set holding exactly
that value, and never calls `resolve`, so that a `Then` on the promise invokes
`errFn` with that one value. -/
theorem C4_rejects_iff_single_error (outputs : List Value) :
    ((∃ E, Call.reject E ∈ wrappedFn outputs) ↔ ∃ v, outputs = [v] ∧ isError v = true) ∧
    (∀ v, outputs = [v] → isError v = true →
      wrappedFn outputs = [.reject [v]] ∧
      Inevitable SingleState.step
        (fun s => s.thens = [{ returned := true, calls := [.errFn [v]] }])
        (SingleState.observe (NewPromiseFunc outputs) 1)) := by
  constructor
  · constructor
    · rintro ⟨E, hE⟩
      match outputs, hE with
      | [], hE => simp [wrappedFn_nil] at hE
      | [v], hE =>
        rw [wrappedFn_single] at hE
        by_cases hv : isError v = true
        · exact ⟨v, rfl, hv⟩
        · simp [hv] at hE
      | v :: w :: rest, hE => simp [wrappedFn_many] at hE
    · rintro ⟨v, rfl, hv⟩
      exact ⟨[v], by simp [wrappedFn_single, hv]⟩
  · rintro v rfl hv
    have hw : wrappedFn [v] = [.reject [v]] := by simp [wrappedFn_single, hv]
    refine ⟨hw, ?_⟩
    unfold NewPromiseFunc
    rw [hw]
    exact (oneCall_one_observer (.reject [v])).2

/-- C5: when the values returned by `fn` are not exactly one non-nil error, the
executor of `NewPromiseFunc(fn)` makes exactly one call, `resolve` with all the
returned values in return order, and never calls `reject`, so that a `Then` on
the promise invokes `succFn` with exactly those values. -/
theorem C5_resolves_with_all_outputs (outputs : List Value)
    (h : ¬ ∃ v, outputs = [v] ∧ isError v = true) :
    wrappedFn outputs = [.resolve outputs] ∧
    Inevitable SingleState.step
      (fun s => s.thens = [{ returned := true, calls := [.succFn outputs] }])
      (SingleState.observe (NewPromiseFunc outputs) 1) := by
  have hw : wrappedFn outputs = [.resolve outputs] := by
    match outputs, h with
    | [], _ => rfl
    | [v], h =>
      have hv : ¬ isError v = true := fun hv => h ⟨v, rfl, hv⟩
      simp [wrappedFn_single, hv]
    | v :: w :: rest, _ => exact wrappedFn_many v w rest
  refine ⟨hw, ?_⟩
  unfold NewPromiseFunc
  rw [hw]
  exact (oneCall_one_observer (.resolve outputs)).2

/-- C5 at a function returning two values, one of them a non-nil error. -/
theorem C5_resolves_with_all_outputs_witness :
    (¬ ∃ v, [Value.str "a", Value.err "boom"] = [v] ∧ isError v = true) ∧
    wrappedFn [.str "a", .err "boom"] = [.resolve [.str "a", .err "boom"]] ∧
    Inevitable SingleState.step
      (fun s => s.thens = [{ returned := true, calls := [.succFn [.str "a", .err "boom"]] }])
      (SingleState.observe (NewPromiseFunc [.str "a", .err "boom"]) 1) :=
  ⟨by simp, C5_resolves_with_all_outputs [.str "a", .err "boom"] (by simp)⟩

/-! ## Claims on `All` and `multiPromise.Then` -/

/-- C6 at `A` resolving with `["foo"]` and `B` resolving with `["bar","baz"]`:
on every schedule `All(A,B).Then` returns having invoked `succFn` once with ONE
value, the slice `["foo","bar","baz"]`, and on no schedule does `succFn` receive
the three values `"foo"`, `"bar"`, `"baz"`. -/
theorem C6_success_values_arrive_boxed :
    Inevitable (All [.succFn [.str "foo"], .succFn [.str "bar", .str "baz"]]).progress
      (fun s => s.pc = .returned ∧
        s.calls = [.succFn [.slice [.str "foo", .str "bar", .str "baz"]]])
      (All [.succFn [.str "foo"], .succFn [.str "bar", .str "baz"]]).Then ∧
    ¬ ∃ acts s,
        run (All [.succFn [.str "foo"], .succFn [.str "bar", .str "baz"]]).step
          (All [.succFn [.str "foo"], .succFn [.str "bar", .str "baz"]]).Then acts = some s ∧
        s.calls = [.succFn [.str "foo", .str "bar", .str "baz"]] := by
  obtain ⟨h1, h2⟩ := all_succeed_behaviour [[.str "foo"], [.str "bar", .str "baz"]]
  refine ⟨h2 (by decide), ?_⟩
  rintro ⟨acts, s, hrun, hcalls⟩
  rcases (h1 acts s hrun).1 with h | h <;>
    · rw [hcalls] at h
      simp at h

/-- C7 at `A` resolving and `B` rejecting with `"boom"`: on every schedule
`All(A,B).Then` returns having invoked `errFn` once with ONE value, the slice
`["boom"]`, and on no schedule does `errFn` receive the value `"boom"` itself. -/
theorem C7_failure_values_arrive_boxed :
    Inevitable (All [.succFn [.str "ok"], .errFn [.str "boom"]]).progress
      (fun s => s.pc = .returned ∧ s.calls = [.errFn [.slice [.str "boom"]]])
      (All [.succFn [.str "ok"], .errFn [.str "boom"]]).Then ∧
    ¬ ∃ acts s,
        run (All [.succFn [.str "ok"], .errFn [.str "boom"]]).step
          (All [.succFn [.str "ok"], .errFn [.str "boom"]]).Then acts = some s ∧
        s.calls = [.errFn [.str "boom"]] := by
  have huniq : ∀ (i : Nat) (E' : List Value),
      ([.succFn [.str "ok"], .errFn [.str "boom"]] : List Promise)[i]? = some (.errFn E') →
        i = 1 := by
    intro i E' h
    match i, h with
    | 0, h => simp at h
    | 1, _ => rfl
    | i + 2, h => simp at h
  obtain ⟨h1, h2⟩ := single_reject_behaviour [.succFn [.str "ok"], .errFn [.str "boom"]] 1
    [.str "boom"] rfl huniq
  refine ⟨h2, ?_⟩
  rintro ⟨acts, s, hrun, hcalls⟩
  rcases h1 acts s hrun with h | h <;>
    · rw [hcalls] at h
      simp at h

/-- C8 at `All()`: every schedule leaves `Then` in its initial state, inside
the monitor loop with no callback invoked; the `default` branch of the `select`
is always enabled and changes nothing, and no other move exists.  So `Then`
never returns and never invokes `succFn`. -/
theorem C8_empty_all_never_returns :
    (∀ acts s, run (All []).step (All []).Then acts = some s → s = (All []).Then) ∧
    (All []).step (All []).Then .poll = some (All []).Then ∧
    (∀ a, (All []).progress (All []).Then a = none) ∧
    (All []).Then.pc = .monitor ∧ (All []).Then.calls = [] := by
  have hstep : ∀ a s', (All []).step (All []).Then a = some s' → s' = (All []).Then := by
    intro a s' h
    cases a <;> simp [multiPromise.step, multiPromise.Then, All, senderReady] at h
    exact h.symm
  refine ⟨?_, rfl, ?_, rfl, rfl⟩
  · intro acts s h
    exact run_invariant (All []).step (fun s => s = (All []).Then)
      (fun s a s' hs h => by subst hs; exact hstep a s' h) acts _ s rfl h
  · intro a
    cases a <;> simp [multiPromise.progress, multiPromise.step, multiPromise.Then, All]

/-- C9: when at least one member rejects, in every reachable state of
`All(promises).Then` the success counter is below `N = len(promises)` and
`succFn` has not been invoked, whatever the order in which the members settle. -/
theorem C9_success_needs_every_member (promises : List Promise) (E : List Value)
    (hrej : Callback.errFn E ∈ promises) (acts : List MultiAction) (s : MultiState)
    (hrun : run (All promises).step (All promises).Then acts = some s) :
    s.successCounter < promises.length ∧ ∀ args, Callback.succFn args ∉ s.calls := by
  obtain ⟨k, hk⟩ := List.getElem?_of_mem hrej
  have inv := multi_reachable (All promises) acts s hrun
  have hne : (All promises).promises ≠ [] := List.ne_nil_of_mem hrej
  obtain ⟨hnf, hret⟩ := outcome_of_reject (All promises) s inv k E hk
  cases hs : s.pc with
  | monitor =>
    obtain ⟨hcalls, hlt⟩ := inv.monitor hs
    exact ⟨hlt hne, by simp [hcalls]⟩
  | flatten => exact absurd hs hnf
  | returned =>
    obtain ⟨i, E', -, hcalls, hlt⟩ := hret hs
    exact ⟨hlt, by simp [hcalls]⟩

/-- C9 at `All(A,B)` with `A` resolving and `B` rejecting with `"boom"`, after
`A` was collected and counted and `B` has stored its error. -/
theorem C9_success_needs_every_member_witness :
    Callback.errFn [.str "boom"] ∈ ([.succFn [.str "ok"], .errFn [.str "boom"]] : List Promise) ∧
    ∃ s, run (All [.succFn [.str "ok"], .errFn [.str "boom"]]).step
        (All [.succFn [.str "ok"], .errFn [.str "boom"]]).Then
        [.childThen 0, .successDone 0, .poll, .childThen 1] = some s ∧
      s.successCounter = 1 ∧
      s.successCounter < 2 ∧ ∀ args, Callback.succFn args ∉ s.calls :=
  ⟨by simp, _, rfl, rfl,
    C9_success_needs_every_member [.succFn [.str "ok"], .errFn [.str "boom"]] [.str "boom"]
      (by simp) [.childThen 0, .successDone 0, .poll, .childThen 1] _ rfl⟩

end GoPromise

namespace GoPromise

/-! ## `multiPromise.Then` over `singlePromise` objects: the moves -/

theorem heap_step_eval_some (mp : Heap.multiPromise) (s s' : Heap.State) (r : Nat)
    (h : mp.step s (.eval r) = some s') :
    ∃ p p', s.heap[r]? = some p ∧ p.evalStep = some p' ∧
      s' = { s with heap := s.heap.set r p' } := by
  simp only [Heap.multiPromise.step] at h
  cases hp : s.heap[r]? with
  | none => simp [hp] at h
  | some p =>
    simp only [hp] at h
    cases he : p.evalStep with
    | none => simp [he] at h
    | some p' =>
      simp only [he, Option.some.injEq] at h
      exact ⟨p, p', rfl, he, h.symm⟩

theorem heap_step_childThen_some (mp : Heap.multiPromise) (s s' : Heap.State) (i : Nat)
    (h : mp.step s (.childThen i) = some s') :
    ∃ r p p', s.collectors[i]? = some .inThen ∧ mp.promises[i]? = some r ∧
      s.heap[r]? = some p ∧
      ((∃ res, p.Then = some (.succFn res, p') ∧
          s' = { s with heap := s.heap.set r p', results := s.results.set i res,
                        collectors := s.collectors.set i .sendSuccess }) ∨
       (∃ e, p.Then = some (.errFn e, p') ∧
          s' = { s with heap := s.heap.set r p', errs := s.errs.set i e,
                        collectors := s.collectors.set i .sendErr })) := by
  simp only [Heap.multiPromise.step] at h
  split at h
  · next r hc hr =>
    cases hp : s.heap[r]? with
    | none => simp [hp] at h
    | some p =>
      simp only [hp] at h
      split at h
      · next res p' hT =>
        simp only [Option.some.injEq] at h
        exact ⟨r, p, p', hc, hr, hp, Or.inl ⟨res, hT, h.symm⟩⟩
      · next e p' hT =>
        simp only [Option.some.injEq] at h
        exact ⟨r, p, p', hc, hr, hp, Or.inr ⟨e, hT, h.symm⟩⟩
      · simp at h
  · simp at h

theorem heap_step_successDone_some (mp : Heap.multiPromise) (s s' : Heap.State) (i : Nat)
    (h : mp.step s (.successDone i) = some s') :
    s.pc = .monitor ∧ s.collectors[i]? = some .sendSuccess ∧
    s' = { s with
      collectors := s.collectors.set i .exited
      successCounter := s.successCounter + 1
      pc := if s.successCounter + 1 = mp.promises.length then .flatten else .monitor } := by
  simp only [Heap.multiPromise.step] at h
  split at h
  · next hpc hc =>
    simp only [Option.some.injEq] at h
    exact ⟨hpc, hc, h.symm⟩
  · simp at h

theorem heap_step_errDone_some (mp : Heap.multiPromise) (s s' : Heap.State) (i : Nat)
    (h : mp.step s (.errDone i) = some s') :
    s.pc = .monitor ∧ s.collectors[i]? = some .sendErr ∧
    s' = { s with
      collectors := s.collectors.set i .exited
      pc := .returned
      calls := s.calls ++ [.errFn [.slice (s.errs.getD i [])]] } := by
  simp only [Heap.multiPromise.step] at h
  split at h
  · next hpc hc =>
    simp only [Option.some.injEq] at h
    exact ⟨hpc, hc, h.symm⟩
  · simp at h

theorem heap_step_poll_some (mp : Heap.multiPromise) (s s' : Heap.State)
    (h : mp.step s .poll = some s') : s.pc = .monitor ∧ s' = s := by
  simp only [Heap.multiPromise.step] at h
  split at h
  · next hpc =>
    split at h
    · simp at h
    · simp only [Option.some.injEq] at h
      exact ⟨hpc, h.symm⟩
  · simp at h

theorem heap_step_flatten_some (mp : Heap.multiPromise) (s s' : Heap.State)
    (h : mp.step s .flatten = some s') :
    s.pc = .flatten ∧
    s' = { s with pc := .returned,
                  calls := s.calls ++ [.succFn [.slice (flatResults s.results)]] } := by
  simp only [Heap.multiPromise.step] at h
  split at h
  · next hpc =>
    simp only [Option.some.injEq] at h
    exact ⟨hpc, h.symm⟩
  · simp at h

theorem heap_progress_some (mp : Heap.multiPromise) (s s' : Heap.State) (a : Heap.Action)
    (h : mp.progress s a = some s') : mp.step s a = some s' ∧ a ≠ .poll := by
  unfold Heap.multiPromise.progress at h
  split at h
  · simp at h
  · exact ⟨h, by assumption⟩

theorem nodup_getElem?_inj {α : Type} (l : List α) (hl : l.Nodup) (i j : Nat) (a : α)
    (hi : l[i]? = some a) (hj : l[j]? = some a) : i = j := by
  obtain ⟨hi', hia⟩ := List.getElem?_eq_some.mp hi
  obtain ⟨hj', hja⟩ := List.getElem?_eq_some.mp hj
  exact (List.Nodup.getElem_inj_iff hl).mp (hia.trans hja.symm)

/-! ## `multiPromise.Then` over `singlePromise` objects: the invariant -/

theorem heap_members_fresh (promises : List Nat) (heap : List singlePromise)
    (Vs : List (List Value))
    (hheap : promises.map (fun r => heap[r]?)
      = Vs.map (fun V => some (NewPromise [.resolve V]))) :
    Vs.length = promises.length ∧
    ∀ (i : Nat) (V : List Value), Vs[i]? = some V →
      ∃ r, promises[i]? = some r ∧ heap[r]? = some (NewPromise [.resolve V]) := by
  constructor
  · have := congrArg List.length hheap
    simpa using this.symm
  · intro i V hV
    have := congrArg (fun l => l[i]?) hheap
    simp only [List.getElem?_map, hV, Option.map_some'] at this
    cases hr : promises[i]? with
    | none => simp [hr] at this
    | some r =>
      simp only [hr, Option.map_some', Option.some.injEq] at this
      exact ⟨r, rfl, this⟩

theorem heap_init (promises : List Nat) (heap : List singlePromise) (Vs : List (List Value))
    (hN : 0 < promises.length)
    (hheap : promises.map (fun r => heap[r]?)
      = Vs.map (fun V => some (NewPromise [.resolve V]))) :
    HeapInv (Heap.All promises) Vs ((Heap.All promises).Then heap) where
  len_collectors := by simp [Heap.multiPromise.Then]
  len_results := by simp [Heap.multiPromise.Then]
  member := by
    intro i V hV
    obtain ⟨hlen, hfresh⟩ := heap_members_fresh promises heap Vs hheap
    obtain ⟨r, hr, hp⟩ := hfresh i V hV
    have hi : i < promises.length := lt_length_of_getElem? _ _ _ hr
    refine ⟨r, _, .inThen, [], hr, hp, ?_, ?_, Or.inl ⟨rfl, rfl⟩⟩
    · simp only [Heap.multiPromise.Then, Heap.All, List.getElem?_replicate, if_pos hi]
    · simp only [Heap.multiPromise.Then, Heap.All, List.getElem?_replicate, if_pos hi]
  counter := by
    intro _
    symm
    simp only [Heap.multiPromise.Then]
    rw [List.countP_eq_zero]
    intro a ha
    rw [List.mem_replicate] at ha
    rw [ha.2]
    decide
  monitor := by
    intro _
    exact ⟨rfl, hN⟩
  flatten := by
    intro h
    simp [Heap.multiPromise.Then] at h
  returned := by
    intro h
    simp [Heap.multiPromise.Then] at h

theorem heap_inv_eval (mp : Heap.multiPromise) (Vs : List (List Value)) (s : Heap.State)
    (r : Nat) (p p' : singlePromise) (inv : HeapInv mp Vs s)
    (hp : s.heap[r]? = some p) (he : p.evalStep = some p') :
    HeapInv mp Vs { s with heap := s.heap.set r p' } := by
  have hr : r < s.heap.length := lt_length_of_getElem? _ _ _ hp
  refine
    { len_collectors := inv.len_collectors, len_results := inv.len_results, member := ?_
      counter := inv.counter, monitor := inv.monitor, flatten := inv.flatten
      returned := inv.returned }
  intro i V hV
  obtain ⟨ri, q, c, res, h1, h2, h3, h4, hok⟩ := inv.member i V hV
  by_cases hri : ri = r
  · subst hri
    rw [hp] at h2
    simp only [Option.some.injEq] at h2
    subst h2
    rcases hok with ⟨hpa, hc⟩ | ⟨hpb, hc⟩ | ⟨hpc, hc, hres⟩
    · subst hpa
      have hp' : p' = { d := [true], eval := .sendSucc { results := V } [] } := by
        simp [NewPromise, singlePromise.evalStep, resolveFn, DONE_CHAN_BUFFER_SIZE] at he
        exact he.symm
      refine ⟨ri, p', c, res, h1, ?_, h3, h4, Or.inr (Or.inl ⟨hp', hc⟩)⟩
      show (s.heap.set ri p')[ri]? = some p'
      rw [List.getElem?_set_self hr]
    · subst hpb
      simp [singlePromise.evalStep] at he
    · subst hpc
      simp [singlePromise.evalStep] at he
  · refine ⟨ri, q, c, res, h1, ?_, h3, h4, hok⟩
    show (s.heap.set r p')[ri]? = some q
    rw [List.getElem?_set_ne (Ne.symm hri)]
    exact h2

theorem heap_childThen_shape (mp : Heap.multiPromise) (Vs : List (List Value))
    (s s' : Heap.State) (i : Nat) (hlen : Vs.length = mp.promises.length)
    (inv : HeapInv mp Vs s) (h : mp.step s (.childThen i) = some s') :
    ∃ r V, Vs[i]? = some V ∧ mp.promises[i]? = some r ∧ s.collectors[i]? = some .inThen ∧
      s.heap[r]? = some { d := [true], eval := .sendSucc { results := V } [] } ∧
      s' = { s with
        heap := s.heap.set r { d := [true], eval := .running [] }
        results := s.results.set i V
        collectors := s.collectors.set i .sendSuccess } := by
  obtain ⟨r, p, p', hc, hr, hp, hcase⟩ := heap_step_childThen_some mp s s' i h
  have hi : i < Vs.length := by
    rw [hlen]
    exact lt_length_of_getElem? _ _ _ hr
  have hV : Vs[i]? = some Vs[i] := List.getElem?_eq_getElem hi
  obtain ⟨r2, q, c, res, h1, h2, h3, h4, hok⟩ := inv.member i Vs[i] hV
  rw [hr] at h1
  simp only [Option.some.injEq] at h1
  subst h1
  rw [hp] at h2
  simp only [Option.some.injEq] at h2
  subst h2
  rw [hc] at h3
  simp only [Option.some.injEq] at h3
  subst h3
  rcases hok with ⟨hpa, -⟩ | ⟨hpb, -⟩ | ⟨-, hcc, -⟩
  · subst hpa
    rcases hcase with ⟨res', hT, -⟩ | ⟨e, hT, -⟩ <;> simp [NewPromise, singlePromise.Then] at hT
  · subst hpb
    rcases hcase with ⟨res', hT, hs'⟩ | ⟨e, hT, -⟩
    · simp only [singlePromise.Then, Option.some.injEq, Prod.mk.injEq, Callback.succFn.injEq] at hT
      obtain ⟨hres, hp'⟩ := hT
      subst hres
      subst hp'
      exact ⟨r, Vs[i], hV, hr, hc, hp, hs'⟩
    · simp [singlePromise.Then] at hT
  · rcases hcc with hcc | hcc <;> simp at hcc

theorem heap_inv_childThen (mp : Heap.multiPromise) (Vs : List (List Value)) (s : Heap.State)
    (i r : Nat) (V : List Value) (hnodup : mp.promises.Nodup) (inv : HeapInv mp Vs s)
    (hV : Vs[i]? = some V) (hr : mp.promises[i]? = some r)
    (hc : s.collectors[i]? = some .inThen)
    (hp : s.heap[r]? = some { d := [true], eval := .sendSucc { results := V } [] }) :
    HeapInv mp Vs { s with
      heap := s.heap.set r { d := [true], eval := .running [] }
      results := s.results.set i V
      collectors := s.collectors.set i .sendSuccess } := by
  have hi : i < s.collectors.length := lt_length_of_getElem? _ _ _ hc
  have hir : i < s.results.length := by rw [inv.len_results, ← inv.len_collectors]; exact hi
  have hrh : r < s.heap.length := lt_length_of_getElem? _ _ _ hp
  refine
    { len_collectors := by simpa using inv.len_collectors
      len_results := by simpa using inv.len_results
      member := ?_, counter := ?_
      monitor := inv.monitor, flatten := inv.flatten, returned := ?_ }
  · intro j W hW
    by_cases hji : j = i
    · subst hji
      rw [hV] at hW
      simp only [Option.some.injEq] at hW
      subst hW
      refine ⟨r, { d := [true], eval := .running [] }, .sendSuccess, V, hr, ?_, ?_, ?_,
        Or.inr (Or.inr ⟨rfl, Or.inl rfl, rfl⟩)⟩
      · show (s.heap.set r _)[r]? = _
        rw [List.getElem?_set_self hrh]
      · show (s.collectors.set j _)[j]? = _
        rw [List.getElem?_set_self hi]
      · show (s.results.set j _)[j]? = _
        rw [List.getElem?_set_self hir]
    · obtain ⟨rj, q, c, res, h1, h2, h3, h4, hok⟩ := inv.member j W hW
      have hrj : r ≠ rj := by
        intro e
        subst e
        exact hji (nodup_getElem?_inj mp.promises hnodup j i r h1 hr)
      refine ⟨rj, q, c, res, h1, ?_, ?_, ?_, hok⟩
      · show (s.heap.set r _)[rj]? = _
        rw [List.getElem?_set_ne hrj]
        exact h2
      · show (s.collectors.set i _)[j]? = _
        rw [List.getElem?_set_ne (Ne.symm hji)]
        exact h3
      · show (s.results.set i _)[j]? = _
        rw [List.getElem?_set_ne (Ne.symm hji)]
        exact h4
  · intro hpc
    have h1 := inv.counter hpc
    have h2 := countP_set_of_getElem? (· == CollectorPc.exited) s.collectors i .sendSuccess _ hc
    simp only [show (CollectorPc.inThen == CollectorPc.exited) = false from rfl,
      show (CollectorPc.sendSuccess == CollectorPc.exited) = false from rfl] at h2
    simp only [Bool.false_eq_true, if_false, Nat.add_zero] at h2
    show s.successCounter = _
    rw [h1]
    exact h2.symm
  · intro hpc
    have := (inv.returned hpc).2 i (by rw [← inv.len_collectors]; exact hi)
    rw [hc] at this
    simp at this

theorem heap_no_sendErr (mp : Heap.multiPromise) (Vs : List (List Value)) (s : Heap.State)
    (i : Nat) (hlen : Vs.length = mp.promises.length) (inv : HeapInv mp Vs s)
    (hc : s.collectors[i]? = some .sendErr) : False := by
  have hi : i < Vs.length := by
    rw [hlen, ← inv.len_collectors]
    exact lt_length_of_getElem? _ _ _ hc
  obtain ⟨r, q, c, res, -, -, h3, -, hok⟩ := inv.member i Vs[i] (List.getElem?_eq_getElem hi)
  rw [hc] at h3
  simp only [Option.some.injEq] at h3
  subst h3
  rcases hok with ⟨-, hcc⟩ | ⟨-, hcc⟩ | ⟨-, hcc | hcc, -⟩ <;> simp at hcc

theorem heap_inv_successDone (mp : Heap.multiPromise) (Vs : List (List Value)) (s : Heap.State)
    (i : Nat) (inv : HeapInv mp Vs s) (hpc : s.pc = .monitor)
    (hc : s.collectors[i]? = some .sendSuccess) :
    HeapInv mp Vs { s with
      collectors := s.collectors.set i .exited
      successCounter := s.successCounter + 1
      pc := if s.successCounter + 1 = mp.promises.length then .flatten else .monitor } := by
  have hi : i < s.collectors.length := lt_length_of_getElem? _ _ _ hc
  have hcalls : s.calls = [] := (inv.monitor hpc).1
  have hcount : s.successCounter + 1 = (s.collectors.set i .exited).countP (· == .exited) := by
    have h1 := inv.counter (by rw [hpc]; simp)
    have h2 := countP_set_of_getElem? (· == CollectorPc.exited) s.collectors i .exited _ hc
    simp only [show (CollectorPc.sendSuccess == CollectorPc.exited) = false from rfl,
      show (CollectorPc.exited == CollectorPc.exited) = true from rfl] at h2
    simp only [Bool.false_eq_true, if_false, if_true, Nat.add_zero] at h2
    omega
  have hle : s.successCounter + 1 ≤ mp.promises.length := by
    rw [hcount, ← inv.len_collectors, ← List.length_set s.collectors i .exited]
    exact List.countP_le_length _
  refine
    { len_collectors := by simpa using inv.len_collectors
      len_results := inv.len_results
      member := ?_, counter := fun _ => hcount
      monitor := ?_, flatten := ?_, returned := ?_ }
  · intro j W hW
    obtain ⟨rj, q, c, res, h1, h2, h3, h4, hok⟩ := inv.member j W hW
    by_cases hji : j = i
    · subst hji
      rw [hc] at h3
      simp only [Option.some.injEq] at h3
      subst h3
      refine ⟨rj, q, .exited, res, h1, h2, ?_, h4, ?_⟩
      · show (s.collectors.set j _)[j]? = _
        rw [List.getElem?_set_self hi]
      · rcases hok with ⟨-, hcc⟩ | ⟨-, hcc⟩ | ⟨hq, -, hres⟩
        · simp at hcc
        · simp at hcc
        · exact Or.inr (Or.inr ⟨hq, Or.inr rfl, hres⟩)
    · refine ⟨rj, q, c, res, h1, h2, ?_, h4, hok⟩
      show (s.collectors.set i _)[j]? = _
      rw [List.getElem?_set_ne (Ne.symm hji)]
      exact h3
  · intro hpc'
    refine ⟨hcalls, ?_⟩
    show s.successCounter + 1 < mp.promises.length
    by_cases heq : s.successCounter + 1 = mp.promises.length
    · simp [heq] at hpc'
    · omega
  · intro hpc'
    refine ⟨hcalls, ?_⟩
    show s.successCounter + 1 = mp.promises.length
    by_cases heq : s.successCounter + 1 = mp.promises.length
    · exact heq
    · simp [heq] at hpc'
  · intro hpc'
    by_cases heq : s.successCounter + 1 = mp.promises.length <;> simp [heq] at hpc'

theorem heap_inv_flatten (mp : Heap.multiPromise) (Vs : List (List Value)) (s : Heap.State)
    (inv : HeapInv mp Vs s) (hpc : s.pc = .flatten) :
    HeapInv mp Vs { s with
      pc := .returned
      calls := s.calls ++ [.succFn [.slice (flatResults s.results)]] } := by
  obtain ⟨hcalls, hN⟩ := inv.flatten hpc
  have hall : ∀ i : Nat, i < mp.promises.length → s.collectors[i]? = some .exited := by
    intro i hi
    have h1 := inv.counter (by rw [hpc]; simp)
    have h2 : s.collectors.countP (· == .exited) = s.collectors.length := by
      rw [← h1, hN, inv.len_collectors]
    have h3 := List.countP_eq_length.mp h2
    have hi' : i < s.collectors.length := by rw [inv.len_collectors]; exact hi
    have h4 := h3 s.collectors[i] (List.getElem_mem hi')
    rw [List.getElem?_eq_getElem hi']
    simpa using h4
  refine
    { len_collectors := inv.len_collectors
      len_results := inv.len_results
      member := inv.member, counter := ?_
      monitor := ?_, flatten := ?_, returned := ?_ }
  · intro hpc'
    exact absurd rfl hpc'
  · intro hpc'
    simp at hpc'
  · intro hpc'
    simp at hpc'
  · intro _
    refine ⟨?_, hall⟩
    show s.calls ++ [Callback.succFn [Value.slice (flatResults s.results)]] = _
    rw [hcalls]
    rfl

theorem heap_step_inv (mp : Heap.multiPromise) (Vs : List (List Value)) (s s' : Heap.State)
    (a : Heap.Action) (hlen : Vs.length = mp.promises.length) (hnodup : mp.promises.Nodup)
    (inv : HeapInv mp Vs s) (h : mp.step s a = some s') : HeapInv mp Vs s' := by
  cases a with
  | eval r =>
    obtain ⟨p, p', hp, he, rfl⟩ := heap_step_eval_some mp s s' r h
    exact heap_inv_eval mp Vs s r p p' inv hp he
  | childThen i =>
    obtain ⟨r, V, hV, hr, hc, hp, rfl⟩ := heap_childThen_shape mp Vs s s' i hlen inv h
    exact heap_inv_childThen mp Vs s i r V hnodup inv hV hr hc hp
  | successDone i =>
    obtain ⟨hpc, hc, rfl⟩ := heap_step_successDone_some mp s s' i h
    exact heap_inv_successDone mp Vs s i inv hpc hc
  | errDone i =>
    obtain ⟨-, hc, -⟩ := heap_step_errDone_some mp s s' i h
    exact absurd hc (fun hc => heap_no_sendErr mp Vs s i hlen inv hc)
  | poll =>
    obtain ⟨-, rfl⟩ := heap_step_poll_some mp s s' h
    exact inv
  | flatten =>
    obtain ⟨hpc, rfl⟩ := heap_step_flatten_some mp s s' h
    exact heap_inv_flatten mp Vs s inv hpc

/-! ## `multiPromise.Then` over `singlePromise` objects: progress and termination -/

theorem heap_fuel (mp : Heap.multiPromise) (s s' : Heap.State) (a : Heap.Action)
    (h : mp.progress s a = some s') : s'.fuel < s.fuel := by
  obtain ⟨h, hpoll⟩ := heap_progress_some mp s s' a h
  cases a with
  | eval r =>
    obtain ⟨p, p', hp, he, rfl⟩ := heap_step_eval_some mp s s' r h
    obtain ⟨c, todo, h1, h2, -⟩ := evalStep_some p p' he
    have hf : p.eval.fuel = 2 * todo.length + 2 := by
      rw [h1]
      simp only [EvalPc.fuel, List.length_cons]
      omega
    have hf' : p'.eval.fuel = 2 * todo.length + 1 := by rw [h2, fuel_blocked]
    have := sum_map_set (fun q : singlePromise => q.eval.fuel) s.heap r p' p hp
    simp only [hf, hf'] at this
    simp only [Heap.State.fuel]
    omega
  | childThen i =>
    obtain ⟨r, p, p', hc, -, hp, ⟨res, hT, rfl⟩ | ⟨e, hT, rfl⟩⟩ :=
      heap_step_childThen_some mp s s' i h
    · obtain ⟨c, todo, h1, -, h3⟩ := Then_some p p' _ hT
      have hf : p.eval.fuel = 2 * todo.length + 1 := by rw [h1, fuel_blocked]
      have hf' : p'.eval.fuel = 2 * todo.length := by rw [h3]; rfl
      have hh := sum_map_set (fun q : singlePromise => q.eval.fuel) s.heap r p' p hp
      simp only [hf, hf'] at hh
      have := sum_map_set CollectorPc.weight s.collectors i .sendSuccess _ hc
      simp only [CollectorPc.weight] at this
      simp only [Heap.State.fuel]
      omega
    · obtain ⟨c, todo, h1, -, h3⟩ := Then_some p p' _ hT
      have hf : p.eval.fuel = 2 * todo.length + 1 := by rw [h1, fuel_blocked]
      have hf' : p'.eval.fuel = 2 * todo.length := by rw [h3]; rfl
      have hh := sum_map_set (fun q : singlePromise => q.eval.fuel) s.heap r p' p hp
      simp only [hf, hf'] at hh
      have := sum_map_set CollectorPc.weight s.collectors i .sendErr _ hc
      simp only [CollectorPc.weight] at this
      simp only [Heap.State.fuel]
      omega
  | successDone i =>
    obtain ⟨hpc, hc, rfl⟩ := heap_step_successDone_some mp s s' i h
    have := sum_map_set CollectorPc.weight s.collectors i .exited _ hc
    simp only [CollectorPc.weight] at this
    simp only [Heap.State.fuel, hpc]
    split <;> simp only [MonitorPc.weight] <;> omega
  | errDone i =>
    obtain ⟨hpc, hc, rfl⟩ := heap_step_errDone_some mp s s' i h
    have := sum_map_set CollectorPc.weight s.collectors i .exited _ hc
    simp only [CollectorPc.weight] at this
    simp only [Heap.State.fuel, hpc, MonitorPc.weight]
    omega
  | poll => exact absurd rfl hpoll
  | flatten =>
    obtain ⟨hpc, rfl⟩ := heap_step_flatten_some mp s s' h
    simp only [Heap.State.fuel, hpc, MonitorPc.weight]
    omega

theorem heap_enabled (mp : Heap.multiPromise) (Vs : List (List Value)) (s : Heap.State)
    (hlen : Vs.length = mp.promises.length) (inv : HeapInv mp Vs s) (hpc : s.pc ≠ .returned) :
    ∃ a s', mp.progress s a = some s' := by
  cases hs : s.pc with
  | returned => exact absurd hs hpc
  | flatten =>
    refine ⟨.flatten, ?_⟩
    simp [Heap.multiPromise.progress, Heap.multiPromise.step, hs]
  | monitor =>
    have hlt := (inv.monitor hs).2
    rw [inv.counter hpc, ← inv.len_collectors] at hlt
    obtain ⟨i, c, hc, hcne⟩ := exists_not_of_countP_lt _ _ hlt
    have hi : i < Vs.length := by
      rw [hlen, ← inv.len_collectors]
      exact lt_length_of_getElem? _ _ _ hc
    obtain ⟨r, q, c', res, h1, h2, h3, -, hok⟩ := inv.member i Vs[i] (List.getElem?_eq_getElem hi)
    rw [hc] at h3
    simp only [Option.some.injEq] at h3
    subst h3
    rcases hok with ⟨hq, hcc⟩ | ⟨hq, hcc⟩ | ⟨-, hcc | hcc, -⟩
    · subst hq
      refine ⟨.eval r, ?_⟩
      simp [Heap.multiPromise.progress, Heap.multiPromise.step, h2, NewPromise,
        singlePromise.evalStep, resolveFn, DONE_CHAN_BUFFER_SIZE]
    · subst hq
      subst hcc
      refine ⟨.childThen i, ?_⟩
      simp [Heap.multiPromise.progress, Heap.multiPromise.step, hc, h1, h2, singlePromise.Then]
    · subst hcc
      refine ⟨.successDone i, ?_⟩
      simp [Heap.multiPromise.progress, Heap.multiPromise.step, hs, hc]
    · subst hcc
      simp at hcne

theorem heap_outcome (mp : Heap.multiPromise) (Vs : List (List Value)) (s : Heap.State)
    (hlen : Vs.length = mp.promises.length) (inv : HeapInv mp Vs s) :
    (s.pc ≠ .returned → s.calls = []) ∧
    (s.pc = .returned → s.calls = [.succFn [.slice Vs.flatten]]) := by
  constructor
  · intro hpc
    cases hs : s.pc with
    | returned => exact absurd hs hpc
    | flatten => exact (inv.flatten hs).1
    | monitor => exact (inv.monitor hs).1
  · intro hpc
    obtain ⟨hcalls, hall⟩ := inv.returned hpc
    have hres : s.results = Vs := by
      apply List.ext_getElem?
      intro n
      by_cases hn : n < Vs.length
      · obtain ⟨r, q, c, res, -, -, h3, h4, hok⟩ :=
          inv.member n Vs[n] (List.getElem?_eq_getElem hn)
        rw [hall n (by rw [← hlen]; exact hn)] at h3
        simp only [Option.some.injEq] at h3
        subst h3
        rw [h4, List.getElem?_eq_getElem hn]
        rcases hok with ⟨-, hcc⟩ | ⟨-, hcc⟩ | ⟨-, -, hres⟩
        · simp at hcc
        · simp at hcc
        · rw [hres]
      · have h1 : s.results.length = Vs.length := by rw [inv.len_results, hlen]
        rw [List.getElem?_eq_none (by omega), List.getElem?_eq_none (by omega)]
    rw [hcalls, hres, flatResults_eq_flatten]

/-- Distinct members that each resolve once: `succFn` is invoked once, with one
argument, the slice holding the members' value-sets concatenated in input
order, and `Then` returns on every schedule. -/
theorem distinct_members_behaviour (promises : List Nat) (heap : List singlePromise)
    (Vs : List (List Value)) (hN : 0 < promises.length) (hnodup : promises.Nodup)
    (hheap : promises.map (fun r => heap[r]?)
      = Vs.map (fun V => some (NewPromise [.resolve V]))) :
    (∀ acts s, run (Heap.All promises).step ((Heap.All promises).Then heap) acts = some s →
      (s.calls = [] ∨ s.calls = [.succFn [.slice Vs.flatten]]) ∧
      (s.pc = .returned → s.calls = [.succFn [.slice Vs.flatten]])) ∧
    Inevitable (Heap.All promises).progress
      (fun s => s.pc = .returned ∧ s.calls = [.succFn [.slice Vs.flatten]])
      ((Heap.All promises).Then heap) := by
  have hlen : Vs.length = (Heap.All promises).promises.length :=
    (heap_members_fresh promises heap Vs hheap).1
  have hinit := heap_init promises heap Vs hN hheap
  constructor
  · intro acts s h
    have inv : HeapInv (Heap.All promises) Vs s :=
      run_invariant (Heap.All promises).step (HeapInv (Heap.All promises) Vs)
        (fun s a s' hs hstep => heap_step_inv _ Vs s s' a hlen hnodup hs hstep) acts _ s hinit h
    obtain ⟨h1, h2⟩ := heap_outcome _ Vs s hlen inv
    refine ⟨?_, h2⟩
    by_cases hpc : s.pc = .returned
    · exact Or.inr (h2 hpc)
    · exact Or.inl (h1 hpc)
  · refine Inevitable.of_measure (Heap.All promises).progress _ (HeapInv (Heap.All promises) Vs)
      Heap.State.fuel ?_ _ hinit
    intro s inv
    by_cases hpc : s.pc = .returned
    · exact Or.inl ⟨hpc, (heap_outcome _ Vs s hlen inv).2 hpc⟩
    · refine Or.inr ⟨heap_enabled _ Vs s hlen inv hpc, fun a s' h => ?_⟩
      exact ⟨heap_step_inv _ Vs s s' a hlen hnodup inv (heap_progress_some _ s s' a h).1,
        heap_fuel _ s s' a h⟩

/-! ## `All(a, a)`: one promise object given twice -/

theorem aliasedClosed_spec (a : Heap.Action) (hcl : aliasedClosed a = true)
    (s s' : Heap.State) (hs : s ∈ aliasedStates) (h : (Heap.All [0, 0]).step s a = some s') :
    s' ∈ aliasedStates := by
  unfold aliasedClosed at hcl
  rw [List.all_eq_true] at hcl
  have := hcl s hs
  rw [h] at this
  simpa using this

theorem aliased_lengths :
    ∀ s ∈ aliasedStates, s.heap.length = 1 ∧ s.collectors.length = 2 := by
  decide

theorem aliased_in_loop : ∀ s ∈ aliasedStates, s.pc = .monitor ∧ s.calls = [] := by
  decide

theorem aliased_step (s s' : Heap.State) (a : Heap.Action) (hs : s ∈ aliasedStates)
    (h : (Heap.All [0, 0]).step s a = some s') : s' ∈ aliasedStates := by
  obtain ⟨hheap, hcoll⟩ := aliased_lengths s hs
  cases a with
  | eval r =>
    obtain ⟨p, p', hp, -, -⟩ := heap_step_eval_some _ s s' r h
    have hr : r < 1 := hheap ▸ lt_length_of_getElem? _ _ _ hp
    obtain rfl : r = 0 := by omega
    exact aliasedClosed_spec (.eval 0) (by decide) s s' hs h
  | childThen i =>
    obtain ⟨r, p, p', hc, -, -, -⟩ := heap_step_childThen_some _ s s' i h
    have hi : i < 2 := hcoll ▸ lt_length_of_getElem? _ _ _ hc
    have : i = 0 ∨ i = 1 := by omega
    rcases this with rfl | rfl
    · exact aliasedClosed_spec (.childThen 0) (by decide) s s' hs h
    · exact aliasedClosed_spec (.childThen 1) (by decide) s s' hs h
  | successDone i =>
    obtain ⟨-, hc, -⟩ := heap_step_successDone_some _ s s' i h
    have hi : i < 2 := hcoll ▸ lt_length_of_getElem? _ _ _ hc
    have : i = 0 ∨ i = 1 := by omega
    rcases this with rfl | rfl
    · exact aliasedClosed_spec (.successDone 0) (by decide) s s' hs h
    · exact aliasedClosed_spec (.successDone 1) (by decide) s s' hs h
  | errDone i =>
    obtain ⟨-, hc, -⟩ := heap_step_errDone_some _ s s' i h
    have hi : i < 2 := hcoll ▸ lt_length_of_getElem? _ _ _ hc
    have : i = 0 ∨ i = 1 := by omega
    rcases this with rfl | rfl
    · exact aliasedClosed_spec (.errDone 0) (by decide) s s' hs h
    · exact aliasedClosed_spec (.errDone 1) (by decide) s s' hs h
  | poll => exact aliasedClosed_spec .poll (by decide) s s' hs h
  | flatten => exact aliasedClosed_spec .flatten (by decide) s s' hs h

theorem aliased_reachable (acts : List Heap.Action) (s : Heap.State)
    (h : run (Heap.All [0, 0]).step
      ((Heap.All [0, 0]).Then [NewPromise [.resolve [.str "v"]]]) acts = some s) :
    s ∈ aliasedStates :=
  run_invariant (Heap.All [0, 0]).step (fun s => s ∈ aliasedStates)
    (fun s a s' hs hstep => aliased_step s s' a hs hstep) acts _ s (by decide) h

/-! ## Claim on the argument of `succFn` -/

/-- C10, as stated, fails: for `All(a, a)` with one promise `a` whose executor
calls `resolve("v")` once, so that both children settle once by resolving, no
schedule makes `multiPromise.Then` return or invoke a callback: the one value
sent on `a.succ` reaches one collector, the other collector stays blocked in
`a.Then`, `successCounter` stops at 1 and the monitor loop never ends. -/
theorem C10_same_promise_twice_never_returns :
    ¬ ∃ acts s,
        run (Heap.All [0, 0]).step
          ((Heap.All [0, 0]).Then [NewPromise [.resolve [.str "v"]]]) acts = some s ∧
        (s.pc = .returned ∨ s.calls ≠ []) := by
  rintro ⟨acts, s, h, hbad⟩
  obtain ⟨hpc, hcalls⟩ := aliased_in_loop s (aliased_reachable acts s h)
  rcases hbad with hret | hne
  · rw [hpc] at hret
    simp at hret
  · exact hne hcalls

/-- C10, amended: for `N ≥ 1` pairwise distinct promises built by `NewPromise`
(`promises` holds their addresses, without repetition), observed by this call
of `multiPromise.Then` only, member `i` with an executor that calls
`resolve(Vs[i]...)` once: in every reachable state `succFn` has been invoked not
at all or exactly once with exactly one argument, the slice
`Vs[0] ++ ... ++ Vs[N-1]` in input order, and `errFn` never; once `Then` has
returned the invocation has been made; on every schedule of the state-changing
moves `Then` returns with that invocation, the same for every order in which the
members complete; and the `default` branch of the `select`, the one move left
out of those schedules, changes nothing. -/
theorem C10_distinct_members_single_slice (promises : List Nat) (heap : List singlePromise)
    (Vs : List (List Value)) (hN : 0 < promises.length) (hnodup : promises.Nodup)
    (hheap : promises.map (fun r => heap[r]?)
      = Vs.map (fun V => some (NewPromise [.resolve V]))) :
    (∀ acts s, run (Heap.All promises).step ((Heap.All promises).Then heap) acts = some s →
      (s.calls = [] ∨ s.calls = [.succFn [.slice Vs.flatten]]) ∧
      (s.pc = .returned → s.calls = [.succFn [.slice Vs.flatten]])) ∧
    Inevitable (Heap.All promises).progress
      (fun s => s.pc = .returned ∧ s.calls = [.succFn [.slice Vs.flatten]])
      ((Heap.All promises).Then heap) ∧
    (∀ s s', (Heap.All promises).step s .poll = some s' → s' = s) :=
  ⟨(distinct_members_behaviour promises heap Vs hN hnodup hheap).1,
   (distinct_members_behaviour promises heap Vs hN hnodup hheap).2,
   fun s s' h => (heap_step_poll_some _ s s' h).2⟩

/-- C10 at `All(A, B)` where `A`, stored at address 1, resolves with `["foo"]`
and `B`, stored at address 0, resolves with `["bar","baz"]`. -/
theorem C10_distinct_members_single_slice_witness :
    0 < [1, 0].length ∧ [1, 0].Nodup ∧
    [1, 0].map (fun r =>
        [NewPromise [.resolve [.str "bar", .str "baz"]], NewPromise [.resolve [.str "foo"]]][r]?)
      = [[Value.str "foo"], [Value.str "bar", Value.str "baz"]].map
          (fun V => some (NewPromise [.resolve V])) ∧
    Inevitable (Heap.All [1, 0]).progress
      (fun s => s.pc = .returned ∧
        s.calls = [.succFn [.slice [.str "foo", .str "bar", .str "baz"]]])
      ((Heap.All [1, 0]).Then
        [NewPromise [.resolve [.str "bar", .str "baz"]], NewPromise [.resolve [.str "foo"]]]) :=
  ⟨by decide, by decide, rfl,
    (C10_distinct_members_single_slice [1, 0]
      [NewPromise [.resolve [.str "bar", .str "baz"]], NewPromise [.resolve [.str "foo"]]]
      [[.str "foo"], [.str "bar", .str "baz"]] (by decide) (by decide) rfl).2.1⟩

end GoPromise
